import Mathlib

/-!
Verification of the `commuter` repository's path enumerator (`src/graph.rs`)
and commutativity checker (`src/diagram.rs`) against its specification.

The Rust code is shallowly embedded:
* the `DiGraph` trait (nodes / outbounds) together with the `Edge` trait
  (from / to) becomes the structure `DiGraph` below;
* the recursive `search` helper of `all_paths` is not structurally
  terminating (on cyclic graphs the Rust code recurses forever), so it is
  embedded with an explicit fuel parameter: a result of `none` means the
  Rust computation did not finish within the given fuel (divergence or a
  panic), `some (Except.error _)` models `Err(CyclicGraphError)` and
  `some (Except.ok _)` models `Ok(paths)`;
* `all_paths` runs the fueled search with fuel `nodes.length + 1`, which is
  proven sufficient for every well-formed acyclic graph.
-/

namespace Commuter

/-- Embeds the Rust traits `DiGraph` and `Edge` (src/graph.rs lines 4-17):
`nodes()` and `outbounds(node)` iterators become lists, and the `Edge`
accessors `from()` / `to()` become the fields `efrom` / `eto`. -/
structure DiGraph (N : Type) (E : Type) where
  nodes : List N
  outbounds : N → List E
  efrom : E → N
  eto : E → N

/-- Embeds `CyclicGraphError` (src/graph.rs line 20). -/
inductive CyclicGraphError where
  | mk
deriving DecidableEq

instance {ε α : Type} [DecidableEq ε] [DecidableEq α] :
    DecidableEq (Except ε α) := fun x y =>
  match x, y with
  | Except.error a, Except.error b =>
    if h : a = b then Decidable.isTrue (by rw [h])
    else Decidable.isFalse (by intro he; cases he; exact h rfl)
  | Except.ok a, Except.ok b =>
    if h : a = b then Decidable.isTrue (by rw [h])
    else Decidable.isFalse (by intro he; cases he; exact h rfl)
  | Except.error _, Except.ok _ => Decidable.isFalse (by intro he; cases he)
  | Except.ok _, Except.error _ => Decidable.isFalse (by intro he; cases he)

variable {N E : Type} [DecidableEq N]

/-- Models Rust's `?` operator under the fuel wrapper: `none` (divergence
or panic) and `Err` both abort, `Ok` feeds its value to the continuation. -/
def andThen {ε α β : Type} (x : Option (Except ε α))
    (f : α → Option (Except ε β)) : Option (Except ε β) :=
  match x with
  | none => none
  | some (Except.error e) => some (Except.error e)
  | some (Except.ok a) => f a

theorem andThen_eq_ok {ε α β : Type} (x : Option (Except ε α))
    (f : α → Option (Except ε β)) (b : β) :
    andThen x f = some (Except.ok b) ↔
      ∃ a, x = some (Except.ok a) ∧ f a = some (Except.ok b) := by
  cases x with
  | none => simp [andThen]
  | some r => cases r with
    | error e => simp [andThen]
    | ok a => simp [andThen]

theorem andThen_eq_some {ε α β : Type} (x : Option (Except ε α))
    (f : α → Option (Except ε β)) (r : Except ε β) :
    andThen x f = some r ↔
      (∃ e, r = Except.error e ∧ x = some (Except.error e)) ∨
      ∃ a, x = some (Except.ok a) ∧ f a = some r := by
  cases x with
  | none => simp [andThen]
  | some r' => cases r' with
    | error e =>
      simp only [andThen, Option.some.injEq]
      constructor
      · intro h; exact Or.inl ⟨e, h.symm, rfl⟩
      · rintro (⟨e', he', heq⟩ | ⟨a, ha, _⟩)
        · cases heq; rw [he']
        · cases ha
    | ok a =>
      constructor
      · intro h; exact Or.inr ⟨a, rfl, h⟩
      · rintro (⟨e', _, heq⟩ | ⟨a', ha', hf⟩)
        · cases heq
        · cases ha'; exact hf

/-- Loop body of the `for next in graph.outbounds(&current_destination)`
loop inside `search` (src/graph.rs lines 52-62).  `step` is the recursive
call to `search` at one unit less fuel; the list returned in the `ok` case
collects the paths pushed into the shared `paths` vector, in push order. -/
def searchLoop (step : List E → Option (Except CyclicGraphError (List (List E))))
    (currentPath : List E) :
    List E → Option (Except CyclicGraphError (List (List E)))
  | [] => some (Except.ok [])
  | next :: rest =>
    andThen (step (currentPath ++ [next])) fun found =>
      andThen (searchLoop step currentPath rest) fun found2 =>
        some (Except.ok ((currentPath ++ [next]) :: (found ++ found2)))

/-- Embeds the inner recursive function `search` (src/graph.rs lines 38-65).
The Rust recursion has no decreasing measure, hence the fuel; `none` on an
empty `currentPath` models the `current_path.last().unwrap()` panic, which
is unreachable from `all_paths` since every seeded path is nonempty. -/
def searchFuel (g : DiGraph N E) :
    Nat → List E → N → Option (Except CyclicGraphError (List (List E)))
  | 0, _, _ => none
  | Nat.succ fuel, currentPath, initialVertex =>
    match currentPath.getLast? with
    | none => none
    | some lastEdge =>
      if g.eto lastEdge = initialVertex then
        some (Except.error CyclicGraphError.mk)
      else
        searchLoop (fun p => searchFuel g fuel p initialVertex) currentPath
          (g.outbounds (g.eto lastEdge))

/-- Embeds the `for outbound in graph.outbounds(&initial_vertex)` loop of
`all_paths` (src/graph.rs lines 70-75): each outbound seeds a one-edge path
and then the search continues from it. -/
def outboundLoop (g : DiGraph N E) (fuel : Nat) (initialVertex : N) :
    List E → Option (Except CyclicGraphError (List (List E)))
  | [] => some (Except.ok [])
  | outbound :: rest =>
    andThen (searchFuel g fuel [outbound] initialVertex) fun found =>
      andThen (outboundLoop g fuel initialVertex rest) fun found2 =>
        some (Except.ok ([outbound] :: (found ++ found2)))

/-- Embeds the `for initial_vertex in graph.nodes()` loop of `all_paths`
(src/graph.rs lines 68-76). -/
def nodeLoop (g : DiGraph N E) (fuel : Nat) :
    List N → Option (Except CyclicGraphError (List (List E)))
  | [] => some (Except.ok [])
  | v :: vs =>
    andThen (outboundLoop g fuel v (g.outbounds v)) fun found =>
      andThen (nodeLoop g fuel vs) fun found2 =>
        some (Except.ok (found ++ found2))

/-- `all_paths` at an explicit fuel bound. -/
def allPathsFuel (g : DiGraph N E) (fuel : Nat) :
    Option (Except CyclicGraphError (List (List E))) :=
  nodeLoop g fuel g.nodes

/-- Embeds `all_paths` (src/graph.rs lines 31-79).  The fuel
`g.nodes.length + 1` is large enough that on every well-formed acyclic
graph the embedded computation finishes exactly as the Rust code does
(proved below); `none` means the Rust code would not have terminated. -/
def all_paths (g : DiGraph N E) : Option (Except CyclicGraphError (List (List E))) :=
  allPathsFuel g (g.nodes.length + 1)

/-- `IsChain g v p` states that the edge sequence `p` is obtainable by
following outbound edges forward starting at node `v`: each edge is drawn
from the outbounds of the node reached so far. -/
def IsChain (g : DiGraph N E) : N → List E → Prop
  | _, [] => True
  | v, e :: es => e ∈ g.outbounds v ∧ IsChain g (g.eto e) es

def decIsChain (g : DiGraph N E) [DecidableEq E] :
    (v : N) → (p : List E) → Decidable (IsChain g v p)
  | _, [] => Decidable.isTrue trivial
  | v, e :: es =>
    have : Decidable (IsChain g (g.eto e) es) := decIsChain g (g.eto e) es
    inferInstanceAs (Decidable (e ∈ g.outbounds v ∧ IsChain g (g.eto e) es))

instance (g : DiGraph N E) [DecidableEq E] (v : N) (p : List E) :
    Decidable (IsChain g v p) := decIsChain g v p

/-- A graph presentation is well-formed when `outbounds v` only produces
edges whose from-node is `v`, and only nodes listed in `nodes` have
outbound edges.  Both hold for every graph built from a node list and an
edge list in the repository (the test graph and the `Diagram` graph). -/
structure WellFormed (g : DiGraph N E) : Prop where
  from_eq : ∀ v e, e ∈ g.outbounds v → g.efrom e = v
  src_mem : ∀ v e, e ∈ g.outbounds v → v ∈ g.nodes

/-- No node is reachable from itself via one or more edges. -/
def Acyclic (g : DiGraph N E) : Prop :=
  ∀ v p l, IsChain g v p → p.getLast? = some l → g.eto l ≠ v

/-- A directed cycle: some node reaches itself via at least one edge. -/
def HasCycle (g : DiGraph N E) : Prop :=
  ∃ v p l, IsChain g v p ∧ p.getLast? = some l ∧ g.eto l = v

/-- The sequence of nodes whose outbound lists the chain's edges are drawn
from (one per edge). -/
def srcNodes (g : DiGraph N E) : N → List E → List N
  | _, [] => []
  | v, e :: es => v :: srcNodes g (g.eto e) es

theorem srcNodes_length (g : DiGraph N E) (v : N) (p : List E) :
    (srcNodes g v p).length = p.length := by
  induction p generalizing v with
  | nil => rfl
  | cons e es ih => simp [srcNodes, ih]

theorem isChain_append_left (g : DiGraph N E) (v : N) (p q : List E)
    (h : IsChain g v (p ++ q)) : IsChain g v p := by
  induction p generalizing v with
  | nil => trivial
  | cons e es ih =>
    obtain ⟨h1, h2⟩ := h
    exact ⟨h1, ih _ h2⟩

theorem getLast?_cons_of_ne_nil {α : Type} (a : α) (l : List α) (h : l ≠ []) :
    (a :: l).getLast? = l.getLast? := by
  cases l with
  | nil => exact absurd rfl h
  | cons b bs => exact List.getLast?_cons_cons

theorem isChain_snoc (g : DiGraph N E) (v : N) (p : List E) (l e : E)
    (hc : IsChain g v p) (hl : p.getLast? = some l)
    (he : e ∈ g.outbounds (g.eto l)) : IsChain g v (p ++ [e]) := by
  induction p generalizing v with
  | nil => simp at hl
  | cons x xs ih =>
    obtain ⟨h1, h2⟩ := hc
    cases xs with
    | nil =>
      simp at hl
      subst hl
      exact ⟨h1, he, trivial⟩
    | cons y ys =>
      rw [List.getLast?_cons_cons] at hl
      exact ⟨h1, ih _ h2 hl⟩

theorem mem_srcNodes (g : DiGraph N E) (p : List E) (v u : N)
    (hu : u ∈ srcNodes g v p) :
    u = v ∨ ∃ pre l suf, p = pre ++ suf ∧ pre ≠ [] ∧
      pre.getLast? = some l ∧ g.eto l = u := by
  induction p generalizing v with
  | nil => simp [srcNodes] at hu
  | cons e es ih =>
    simp only [srcNodes, List.mem_cons] at hu
    rcases hu with h | h
    · exact Or.inl h
    · rcases ih _ h with h' | ⟨pre, l, suf, hsplit, hne, hlast, heq⟩
      · refine Or.inr ⟨[e], e, es, rfl, by simp, by simp, ?_⟩
        rw [h']
      · refine Or.inr ⟨e :: pre, l, suf, by simp [hsplit], by simp, ?_, heq⟩
        rw [getLast?_cons_of_ne_nil e pre hne]
        exact hlast

theorem srcNodes_nodup (g : DiGraph N E) (hacyc : Acyclic g) (v : N)
    (p : List E) (hc : IsChain g v p) : (srcNodes g v p).Nodup := by
  induction p generalizing v with
  | nil => simp [srcNodes]
  | cons e es ih =>
    obtain ⟨h1, h2⟩ := hc
    refine List.nodup_cons.mpr ⟨?_, ih _ h2⟩
    intro hmem
    rcases mem_srcNodes g es (g.eto e) v hmem with h | ⟨pre, l, suf, hsplit, hne, hlast, heq⟩
    · exact hacyc v [e] e ⟨h1, trivial⟩ (by simp) h.symm
    · refine hacyc v (e :: pre) l ⟨h1, ?_⟩ ?_ heq
      · exact isChain_append_left g (g.eto e) pre suf (hsplit ▸ h2)
      · rw [getLast?_cons_of_ne_nil e pre hne]
        exact hlast

theorem srcNodes_subset_nodes (g : DiGraph N E) (hwf : WellFormed g) (v : N)
    (p : List E) (hc : IsChain g v p) : ∀ u ∈ srcNodes g v p, u ∈ g.nodes := by
  induction p generalizing v with
  | nil => simp [srcNodes]
  | cons e es ih =>
    obtain ⟨h1, h2⟩ := hc
    intro u hu
    simp only [srcNodes, List.mem_cons] at hu
    rcases hu with h | h
    · exact h ▸ hwf.src_mem v e h1
    · exact ih _ h2 u h

/-- On a well-formed acyclic graph every chain is no longer than the node
list: its source nodes are pairwise distinct members of `nodes`. -/
theorem chain_length_le (g : DiGraph N E) (hwf : WellFormed g)
    (hacyc : Acyclic g) (v : N) (p : List E) (hc : IsChain g v p) :
    p.length ≤ g.nodes.length := by
  have hnd := srcNodes_nodup g hacyc v p hc
  have hsub := srcNodes_subset_nodes g hwf v p hc
  have h1 : (srcNodes g v p).toFinset.card = (srcNodes g v p).length :=
    List.toFinset_card_of_nodup hnd
  have h2 : (srcNodes g v p).toFinset ⊆ g.nodes.toFinset := by
    intro x hx
    rw [List.mem_toFinset] at hx ⊢
    exact hsub x hx
  have h3 : g.nodes.toFinset.card ≤ g.nodes.length := g.nodes.toFinset_card_le
  calc p.length = (srcNodes g v p).length := (srcNodes_length g v p).symm
    _ = (srcNodes g v p).toFinset.card := h1.symm
    _ ≤ g.nodes.toFinset.card := Finset.card_le_card h2
    _ ≤ g.nodes.length := h3

/-- If a graph admits a rank function strictly increasing along every
outbound edge, then it is acyclic. -/
theorem acyclic_of_rank (g : DiGraph N E) (rank : N → Nat)
    (hr : ∀ v e, e ∈ g.outbounds v → rank v < rank (g.eto e)) : Acyclic g := by
  have key : ∀ p v l, IsChain g v p → p.getLast? = some l →
      rank v < rank (g.eto l) := by
    intro p
    induction p with
    | nil => intro v l _ hl; simp at hl
    | cons e es ih =>
      intro v l hc hl
      obtain ⟨h1, h2⟩ := hc
      cases es with
      | nil =>
        simp at hl
        subst hl
        exact hr v e h1
      | cons e' es' =>
        have hl' : (e' :: es').getLast? = some l := by
          simpa [List.getLast?_cons_cons] using hl
        exact Nat.lt_trans (hr v e h1) (ih _ _ h2 hl')
  intro v p l hc hl heq
  have := key p v l hc hl
  rw [heq] at this
  exact Nat.lt_irrefl _ this

theorem searchFuel_succ_eq (g : DiGraph N E) (fuel : Nat) (path : List E)
    (v : N) (lastEdge : E) (hl : path.getLast? = some lastEdge)
    (hv : ¬g.eto lastEdge = v) :
    searchFuel g (fuel + 1) path v =
      searchLoop (fun p => searchFuel g fuel p v) path
        (g.outbounds (g.eto lastEdge)) := by
  simp only [searchFuel, hl, if_neg hv]

/-- Every path collected by `search` extends `currentPath` by a nonempty
chain continuation, so it is itself a chain from wherever `currentPath`
is a chain from. -/
theorem search_sound (g : DiGraph N E) :
    ∀ fuel path v found w, searchFuel g fuel path v = some (Except.ok found) →
      IsChain g w path →
      ∀ q ∈ found, IsChain g w q ∧ ∃ ext, ext ≠ [] ∧ q = path ++ ext := by
  intro fuel
  induction fuel with
  | zero => intro path v found w h; simp [searchFuel] at h
  | succ fuel ih =>
    intro path v found w h hchain
    cases hl : path.getLast? with
    | none => simp [searchFuel, hl] at h
    | some lastEdge =>
      by_cases hv : g.eto lastEdge = v
      · simp [searchFuel, hl, if_pos hv] at h
      · rw [searchFuel_succ_eq g fuel path v lastEdge hl hv] at h
        have loop_sound : ∀ es found',
            (∀ e ∈ es, e ∈ g.outbounds (g.eto lastEdge)) →
            searchLoop (fun p => searchFuel g fuel p v) path es =
              some (Except.ok found') →
            ∀ q ∈ found', IsChain g w q ∧ ∃ ext, ext ≠ [] ∧ q = path ++ ext := by
          intro es
          induction es with
          | nil =>
            intro found' _ h'
            simp [searchLoop] at h'
            subst h'
            intro q hq
            simp at hq
          | cons e rest ihes =>
            intro found' hsub h'
            simp only [searchLoop, andThen_eq_ok] at h'
            obtain ⟨f1, hs, f2, hr, heq⟩ := h'
            simp only [Option.some.injEq, Except.ok.injEq] at heq
            subst heq
            intro q hq
            have hchain' : IsChain g w (path ++ [e]) :=
              isChain_snoc g w path lastEdge e hchain hl (hsub e (by simp))
            rcases List.mem_cons.mp hq with hq' | hq'
            · exact hq' ▸ ⟨hchain', [e], by simp, rfl⟩
            · rcases List.mem_append.mp hq' with hq'' | hq''
              · obtain ⟨hcq, ext', hne', heq'⟩ := ih _ _ _ _ hs hchain' q hq''
                exact ⟨hcq, e :: ext', by simp, by simp [heq']⟩
              · exact ihes f2 (fun x hx => hsub x (by simp [hx])) hr q hq''
        exact loop_sound _ found (fun e he => he) h

/-- A successful `searchLoop` run visits every listed outbound edge: the
one-step extension is recorded and its recursive search succeeded with a
subset of the collected paths. -/
theorem searchLoop_visits (step : List E → Option (Except CyclicGraphError (List (List E))))
    (path : List E) :
    ∀ es found, searchLoop step path es = some (Except.ok found) →
      ∀ e ∈ es, (path ++ [e]) ∈ found ∧
        ∃ f1, step (path ++ [e]) = some (Except.ok f1) ∧ ∀ x ∈ f1, x ∈ found := by
  intro es
  induction es with
  | nil => intro found _ e he; simp at he
  | cons e' rest ihes =>
    intro found h' e he
    simp only [searchLoop, andThen_eq_ok] at h'
    obtain ⟨f1, hs, f2, hr, heq⟩ := h'
    simp only [Option.some.injEq, Except.ok.injEq] at heq
    subst heq
    rcases List.mem_cons.mp he with he' | he'
    · subst he'
      exact ⟨by simp, f1, hs, fun x hx => by simp [hx]⟩
    · obtain ⟨hm, f1', hs', hsub'⟩ := ihes f2 hr e he'
      exact ⟨by simp [hm], f1', hs', fun x hx => by simp [hsub' x hx]⟩

/-- Every nonempty chain continuation of `currentPath` is collected by a
successful `search`. -/
theorem search_complete (g : DiGraph N E) :
    ∀ fuel path v lastEdge found,
      searchFuel g fuel path v = some (Except.ok found) →
      path.getLast? = some lastEdge →
      ∀ ext, ext ≠ [] → IsChain g (g.eto lastEdge) ext → path ++ ext ∈ found := by
  intro fuel
  induction fuel with
  | zero => intro path v lastEdge found h; simp [searchFuel] at h
  | succ fuel ih =>
    intro path v lastEdge found h hl ext hne hcx
    by_cases hv : g.eto lastEdge = v
    · simp [searchFuel, hl, if_pos hv] at h
    · rw [searchFuel_succ_eq g fuel path v lastEdge hl hv] at h
      cases ext with
      | nil => exact absurd rfl hne
      | cons e ext' =>
        obtain ⟨he, hcx'⟩ := hcx
        obtain ⟨hm, f1, hs, hsub⟩ := searchLoop_visits _ path _ found h e he
        cases ext' with
        | nil => simpa using hm
        | cons e'' ext'' =>
          have hmem := ih (path ++ [e]) v e f1 hs (List.getLast?_concat _)
            (e'' :: ext'') (by simp) hcx'
          have hassoc : path ++ (e :: e'' :: ext'') =
              (path ++ [e]) ++ (e'' :: ext'') := by simp
          rw [hassoc]
          exact hsub _ hmem

/-- On a well-formed acyclic graph, `search` succeeds whenever the fuel
covers the remaining possible chain length. -/
theorem search_success (g : DiGraph N E) (hwf : WellFormed g)
    (hacyc : Acyclic g) :
    ∀ fuel path v lastEdge, IsChain g v path → path.getLast? = some lastEdge →
      g.nodes.length + 1 ≤ fuel + path.length →
      ∃ found, searchFuel g fuel path v = some (Except.ok found) := by
  intro fuel
  induction fuel with
  | zero =>
    intro path v lastEdge hchain _ hbound
    have := chain_length_le g hwf hacyc v path hchain
    omega
  | succ fuel ih =>
    intro path v lastEdge hchain hl hbound
    have hv : g.eto lastEdge ≠ v := hacyc v path lastEdge hchain hl
    have loop_success : ∀ es, (∀ e ∈ es, e ∈ g.outbounds (g.eto lastEdge)) →
        ∃ f, searchLoop (fun p => searchFuel g fuel p v) path es =
          some (Except.ok f) := by
      intro es
      induction es with
      | nil => exact fun _ => ⟨[], rfl⟩
      | cons e rest ihes =>
        intro hsub
        have hchain' : IsChain g v (path ++ [e]) :=
          isChain_snoc g v path lastEdge e hchain hl (hsub e (by simp))
        obtain ⟨f1, hs⟩ := ih (path ++ [e]) v e hchain' (List.getLast?_concat _)
          (by simp; omega)
        obtain ⟨f2, hr⟩ := ihes (fun x hx => hsub x (by simp [hx]))
        exact ⟨(path ++ [e]) :: (f1 ++ f2), by simp [searchLoop, hs, hr, andThen]⟩
    obtain ⟨f, hloop⟩ := loop_success _ (fun e he => he)
    exact ⟨f, by rw [searchFuel_succ_eq g fuel path v lastEdge hl hv, hloop]⟩

theorem outboundLoop_visits (g : DiGraph N E) (fuel : Nat) (v : N) :
    ∀ es found, outboundLoop g fuel v es = some (Except.ok found) →
      ∀ e ∈ es, [e] ∈ found ∧
        ∃ f1, searchFuel g fuel [e] v = some (Except.ok f1) ∧
          ∀ x ∈ f1, x ∈ found := by
  intro es
  induction es with
  | nil => intro found _ e he; simp at he
  | cons e' rest ihes =>
    intro found h e he
    simp only [outboundLoop, andThen_eq_ok] at h
    obtain ⟨f1, hs, f2, hr, heq⟩ := h
    simp only [Option.some.injEq, Except.ok.injEq] at heq
    subst heq
    rcases List.mem_cons.mp he with he' | he'
    · subst he'
      exact ⟨by simp, f1, hs, fun x hx => by simp [hx]⟩
    · obtain ⟨hm, f1', hs', hsub'⟩ := ihes f2 hr e he'
      exact ⟨by simp [hm], f1', hs', fun x hx => by simp [hsub' x hx]⟩

theorem nodeLoop_visits (g : DiGraph N E) (fuel : Nat) :
    ∀ vs found, nodeLoop g fuel vs = some (Except.ok found) →
      ∀ v ∈ vs, ∃ f, outboundLoop g fuel v (g.outbounds v) = some (Except.ok f) ∧
        ∀ x ∈ f, x ∈ found := by
  intro vs
  induction vs with
  | nil => intro found _ v hv; simp at hv
  | cons v' rest ihvs =>
    intro found h v hv
    simp only [nodeLoop, andThen_eq_ok] at h
    obtain ⟨f1, hs, f2, hr, heq⟩ := h
    simp only [Option.some.injEq, Except.ok.injEq] at heq
    subst heq
    rcases List.mem_cons.mp hv with hv' | hv'
    · subst hv'
      exact ⟨f1, hs, fun x hx => by simp [hx]⟩
    · obtain ⟨f, hf, hsub⟩ := ihvs f2 hr v hv'
      exact ⟨f, hf, fun x hx => by simp [hsub x hx]⟩

theorem outboundLoop_sound (g : DiGraph N E) (fuel : Nat) (v : N) :
    ∀ es found, outboundLoop g fuel v es = some (Except.ok found) →
      (∀ e ∈ es, e ∈ g.outbounds v) →
      ∀ q ∈ found, q ≠ [] ∧ IsChain g v q := by
  intro es
  induction es with
  | nil =>
    intro found h _ q hq
    simp [outboundLoop] at h
    subst h
    simp at hq
  | cons e rest ihes =>
    intro found h hsub q hq
    simp only [outboundLoop, andThen_eq_ok] at h
    obtain ⟨f1, hs, f2, hr, heq⟩ := h
    simp only [Option.some.injEq, Except.ok.injEq] at heq
    subst heq
    have hchain1 : IsChain g v [e] := ⟨hsub e (by simp), trivial⟩
    rcases List.mem_cons.mp hq with hq' | hq'
    · subst hq'
      exact ⟨by simp, hchain1⟩
    · rcases List.mem_append.mp hq' with hq'' | hq''
      · obtain ⟨hc, ext, hne, heq'⟩ := search_sound g fuel [e] v f1 v hs hchain1 q hq''
        refine ⟨?_, hc⟩
        rw [heq']
        simp
      · exact ihes f2 hr (fun x hx => hsub x (by simp [hx])) q hq''

theorem nodeLoop_sound (g : DiGraph N E) (fuel : Nat) :
    ∀ vs found, nodeLoop g fuel vs = some (Except.ok found) →
      ∀ q ∈ found, q ≠ [] ∧ ∃ v, v ∈ vs ∧ IsChain g v q := by
  intro vs
  induction vs with
  | nil =>
    intro found h q hq
    simp [nodeLoop] at h
    subst h
    simp at hq
  | cons v rest ihvs =>
    intro found h q hq
    simp only [nodeLoop, andThen_eq_ok] at h
    obtain ⟨f1, hs, f2, hr, heq⟩ := h
    simp only [Option.some.injEq, Except.ok.injEq] at heq
    subst heq
    rcases List.mem_append.mp hq with hq' | hq'
    · obtain ⟨hne, hc⟩ := outboundLoop_sound g fuel v _ f1 hs (fun e he => he) q hq'
      exact ⟨hne, v, by simp, hc⟩
    · obtain ⟨hne, v', hv', hc⟩ := ihvs f2 hr q hq'
      exact ⟨hne, v', by simp [hv'], hc⟩

theorem outboundLoop_success (g : DiGraph N E) (hwf : WellFormed g)
    (hacyc : Acyclic g) (fuel : Nat) (v : N)
    (hfuel : g.nodes.length ≤ fuel) :
    ∀ es, (∀ e ∈ es, e ∈ g.outbounds v) →
      ∃ found, outboundLoop g fuel v es = some (Except.ok found) := by
  intro es
  induction es with
  | nil => exact fun _ => ⟨[], rfl⟩
  | cons e rest ihes =>
    intro hsub
    have hchain1 : IsChain g v [e] := ⟨hsub e (by simp), trivial⟩
    obtain ⟨f1, hs⟩ := search_success g hwf hacyc fuel [e] v e hchain1 (by simp)
      (by simp; omega)
    obtain ⟨f2, hr⟩ := ihes (fun x hx => hsub x (by simp [hx]))
    exact ⟨[e] :: (f1 ++ f2), by simp [outboundLoop, hs, hr, andThen]⟩

theorem nodeLoop_success (g : DiGraph N E) (hwf : WellFormed g)
    (hacyc : Acyclic g) (fuel : Nat) (hfuel : g.nodes.length ≤ fuel) :
    ∀ vs, ∃ found, nodeLoop g fuel vs = some (Except.ok found) := by
  intro vs
  induction vs with
  | nil => exact ⟨[], rfl⟩
  | cons v rest ihvs =>
    obtain ⟨f1, hs⟩ := outboundLoop_success g hwf hacyc fuel v hfuel _
      (fun e he => he)
    obtain ⟨f2, hr⟩ := ihvs
    exact ⟨f1 ++ f2, by simp [nodeLoop, hs, hr, andThen]⟩

/-- Full characterization of `all_paths` on a well-formed acyclic graph:
it succeeds, and it collects exactly the nonempty chains that start at a
listed node. -/
theorem all_paths_spec (g : DiGraph N E) (hwf : WellFormed g)
    (hacyc : Acyclic g) :
    ∃ ps, all_paths g = some (Except.ok ps) ∧
      ∀ p, p ∈ ps ↔ (p ≠ [] ∧ ∃ v, v ∈ g.nodes ∧ IsChain g v p) := by
  obtain ⟨ps, hps⟩ := nodeLoop_success g hwf hacyc (g.nodes.length + 1)
    (by omega) g.nodes
  refine ⟨ps, hps, fun p => ⟨fun hp => ?_, fun hp => ?_⟩⟩
  · obtain ⟨hne, v, hv, hc⟩ := nodeLoop_sound g _ g.nodes ps hps p hp
    exact ⟨hne, v, hv, hc⟩
  · obtain ⟨hne, v, hv, hc⟩ := hp
    obtain ⟨f, hf, hsubf⟩ := nodeLoop_visits g _ g.nodes ps hps v hv
    cases p with
    | nil => exact absurd rfl hne
    | cons e ext =>
      obtain ⟨he, hcx⟩ := hc
      obtain ⟨hm, f1, hs, hsub1⟩ := outboundLoop_visits g _ v _ f hf e he
      cases ext with
      | nil => exact hsubf _ hm
      | cons e' ext' =>
        have hmem := search_complete g _ [e] v e f1 hs (by simp)
          (e' :: ext') (by simp) hcx
        exact hsubf _ (hsub1 _ (by simpa using hmem))

/-- A search that returns `Ok` did not stand on the initial vertex. -/
theorem search_ok_dest_ne (g : DiGraph N E) (fuel : Nat) (path : List E)
    (v : N) (lastEdge : E) (found : List (List E))
    (h : searchFuel g fuel path v = some (Except.ok found))
    (hl : path.getLast? = some lastEdge) : g.eto lastEdge ≠ v := by
  cases fuel with
  | zero => simp [searchFuel] at h
  | succ fuel =>
    intro hv
    simp [searchFuel, hl, if_pos hv] at h

/-- A search that returns `Ok` has explored every chain continuation of
its current path without any of them reaching the initial vertex. -/
theorem search_ok_no_return (g : DiGraph N E) :
    ∀ ext fuel path v lastEdge found,
      searchFuel g fuel path v = some (Except.ok found) →
      path.getLast? = some lastEdge →
      IsChain g (g.eto lastEdge) ext →
      ∀ l', ext.getLast? = some l' → g.eto l' ≠ v := by
  intro ext
  induction ext with
  | nil => intro _ _ _ _ _ _ _ _ l' hl'; simp at hl'
  | cons e ext' ih =>
    intro fuel path v lastEdge found h hl hcx l' hl'
    cases fuel with
    | zero => simp [searchFuel] at h
    | succ fuel =>
      have hv := search_ok_dest_ne g _ path v lastEdge found h hl
      rw [searchFuel_succ_eq g fuel path v lastEdge hl hv] at h
      obtain ⟨he, hcx'⟩ := hcx
      obtain ⟨_, f1, hs, _⟩ := searchLoop_visits _ path _ found h e he
      cases ext' with
      | nil =>
        simp at hl'
        subst hl'
        exact search_ok_dest_ne g fuel (path ++ [e]) v e f1 hs
          (List.getLast?_concat _)
      | cons e'' ext'' =>
        rw [List.getLast?_cons_cons] at hl'
        exact ih fuel (path ++ [e]) v e f1 hs (List.getLast?_concat _) hcx' l' hl'

/-- If some listed node lies on a directed cycle, the fueled enumeration
never returns `Ok`, at any fuel: it reports the cycle or runs forever. -/
theorem allPathsFuel_ne_ok_of_cycle (g : DiGraph N E)
    (hcyc : ∃ v p l, v ∈ g.nodes ∧ IsChain g v p ∧ p.getLast? = some l ∧
      g.eto l = v) :
    ∀ fuel ps, allPathsFuel g fuel ≠ some (Except.ok ps) := by
  obtain ⟨v, p, l, hv, hc, hl, he⟩ := hcyc
  intro fuel ps h
  obtain ⟨f, hf, _⟩ := nodeLoop_visits g fuel g.nodes ps h v hv
  cases p with
  | nil => simp at hl
  | cons e ext =>
    obtain ⟨hme, hcx⟩ := hc
    obtain ⟨_, f1, hs, _⟩ := outboundLoop_visits g fuel v _ f hf e hme
    cases ext with
    | nil =>
      simp at hl
      subst hl
      exact search_ok_dest_ne g fuel [e] v e f1 hs (by simp) he
    | cons e' ext' =>
      rw [List.getLast?_cons_cons] at hl
      exact search_ok_no_return g (e' :: ext') fuel [e] v e f1 hs (by simp)
        hcx l hl he

/-- The claim's phrasing of a followable path: each edge is an outbound
edge of its from-node and consecutive edges chain (each from-node equals
the previous to-node). -/
def FollowsOutbounds (g : DiGraph N E) (p : List E) : Prop :=
  (∀ e ∈ p, e ∈ g.outbounds (g.efrom e)) ∧
  List.Chain' (fun a b => g.efrom b = g.eto a) p

theorem isChain_follows (g : DiGraph N E) (hwf : WellFormed g) :
    ∀ p v, IsChain g v p → FollowsOutbounds g p := by
  intro p
  induction p with
  | nil => exact fun v _ => ⟨by simp, List.chain'_nil⟩
  | cons e es ih =>
    intro v hc
    obtain ⟨he, hes⟩ := hc
    obtain ⟨ihmem, ihchain⟩ := ih _ hes
    have hfe : g.efrom e = v := hwf.from_eq v e he
    refine ⟨?_, ?_⟩
    · intro x hx
      rcases List.mem_cons.mp hx with hx' | hx'
      · subst hx'
        rw [hfe]
        exact he
      · exact ihmem x hx'
    · cases es with
      | nil => simp
      | cons e' es' =>
        rw [List.chain'_cons]
        obtain ⟨he', _⟩ := hes
        exact ⟨hwf.from_eq _ e' he', ihchain⟩

theorem follows_isChain (g : DiGraph N E) :
    ∀ p e, p.head? = some e → FollowsOutbounds g p → IsChain g (g.efrom e) p := by
  intro p
  induction p with
  | nil => intro e he; simp at he
  | cons x xs ih =>
    intro e he hf
    simp only [List.head?_cons, Option.some.injEq] at he
    subst he
    obtain ⟨hmem, hchain⟩ := hf
    cases xs with
    | nil => exact ⟨hmem x (by simp), trivial⟩
    | cons e' xs' =>
      rw [List.chain'_cons] at hchain
      obtain ⟨hlink, hchain'⟩ := hchain
      have := ih e' rfl ⟨fun y hy => hmem y (by simp [hy]), hchain'⟩
      refine ⟨hmem x (by simp), ?_⟩
      rw [← hlink]
      exact this

/-- The test graph of src/graph.rs (lines 129-140): nodes 1-4, five
increasing edges; `outbounds` filters the edge list on the from-component
exactly as the Rust `TestGraph` implementation does (lines 117-126). -/
def G1 : DiGraph Nat (Nat × Nat) where
  nodes := [1, 2, 3, 4]
  outbounds v := [(1, 2), (1, 3), (2, 3), (2, 4), (3, 4)].filter fun e => e.1 == v
  efrom := Prod.fst
  eto := Prod.snd

theorem G1_wf : WellFormed G1 := by
  constructor
  · intro v e he
    simp only [G1, List.mem_filter, beq_iff_eq] at he
    exact he.2
  · intro v e he
    simp only [G1, List.mem_filter, beq_iff_eq] at he
    obtain ⟨hmem, hfrom⟩ := he
    subst hfrom
    simp only [List.mem_cons, List.not_mem_nil, or_false] at hmem
    rcases hmem with h | h | h | h | h <;> subst h <;> decide

theorem G1_acyclic : Acyclic G1 := by
  apply acyclic_of_rank G1 id
  intro v e he
  simp only [G1, List.mem_filter, beq_iff_eq] at he
  obtain ⟨hmem, hfrom⟩ := he
  subst hfrom
  simp only [List.mem_cons, List.not_mem_nil, or_false] at hmem
  rcases hmem with h | h | h | h | h <;> subst h <;> decide

/-- A graph whose cycle (1 → 2 → 1) does not pass through the node the
outer search visits first: the Rust recursion runs forever on it. -/
def G2 : DiGraph Nat (Nat × Nat) where
  nodes := [0, 1, 2]
  outbounds v := [(0, 1), (1, 2), (2, 1)].filter fun e => e.1 == v
  efrom := Prod.fst
  eto := Prod.snd

/-- A one-node graph with a self-loop listed in `nodes`. -/
def G3 : DiGraph Nat (Nat × Nat) where
  nodes := [0]
  outbounds v := [(0, 0)].filter fun e => e.1 == v
  efrom := Prod.fst
  eto := Prod.snd

/-- A one-node graph with no edges (spec Scenario C, graph side). -/
def G0 : DiGraph Nat (Nat × Nat) where
  nodes := [0]
  outbounds _ := []
  efrom := Prod.fst
  eto := Prod.snd

/-- On `G2` the search seeded at node 0 keeps walking the 1 → 2 → 1 cycle,
never returning to 0, so it exhausts every fuel bound: the Rust code
recurses forever instead of reporting the cycle. -/
theorem searchG2_none : ∀ fuel (path : List (Nat × Nat)) l,
    path.getLast? = some l → (l = (0, 1) ∨ l = (1, 2) ∨ l = (2, 1)) →
    searchFuel G2 fuel path 0 = none := by
  intro fuel
  induction fuel with
  | zero => intro path l _ _; rfl
  | succ fuel ih =>
    intro path l hl hm
    rcases hm with h | h | h <;> subst h
    · rw [searchFuel_succ_eq G2 fuel path 0 (0, 1) hl (by decide)]
      rw [show G2.outbounds (G2.eto ((0 : Nat), (1 : Nat))) = [(1, 2)] from rfl]
      rw [searchLoop, ih (path ++ [(1, 2)]) (1, 2) (List.getLast?_concat _)
        (by simp)]
      rfl
    · rw [searchFuel_succ_eq G2 fuel path 0 (1, 2) hl (by decide)]
      rw [show G2.outbounds (G2.eto ((1 : Nat), (2 : Nat))) = [(2, 1)] from rfl]
      rw [searchLoop, ih (path ++ [(2, 1)]) (2, 1) (List.getLast?_concat _)
        (by simp)]
      rfl
    · rw [searchFuel_succ_eq G2 fuel path 0 (2, 1) hl (by decide)]
      rw [show G2.outbounds (G2.eto ((2 : Nat), (1 : Nat))) = [(1, 2)] from rfl]
      rw [searchLoop, ih (path ++ [(1, 2)]) (1, 2) (List.getLast?_concat _)
        (by simp)]
      rfl

/-- On `G2`, `all_paths` diverges: no fuel bound suffices. -/
theorem allPathsFuel_G2_none : ∀ fuel, allPathsFuel G2 fuel = none := by
  intro fuel
  have h := searchG2_none fuel [(0, 1)] (0, 1) rfl (by simp)
  rw [allPathsFuel, show G2.nodes = [0, 1, 2] from rfl, nodeLoop,
    show G2.outbounds (0 : Nat) = [(0, 1)] from rfl, outboundLoop, h]
  rfl

/-- C1: on every finite well-formed acyclic directed graph, `all_paths`
returns `Ok` of a collection that is exactly the set of all non-empty edge
sequences obtainable by following outbound edges forward from any listed
node (each consecutive edge's from-node equals the previous edge's
to-node, and each edge is an outbound edge of its from-node); in
particular every nonempty prefix of every emitted path is itself
emitted. -/
theorem c1_all_paths_exact (g : DiGraph N E) (hwf : WellFormed g)
    (hacyc : Acyclic g) :
    ∃ ps, all_paths g = some (Except.ok ps) ∧
      (∀ p, p ∈ ps ↔ (p ≠ [] ∧ FollowsOutbounds g p ∧
        ∃ e, p.head? = some e ∧ g.efrom e ∈ g.nodes)) ∧
      (∀ p q r, p ∈ ps → q ≠ [] → p = q ++ r → q ∈ ps) := by
  obtain ⟨ps, hok, hiff⟩ := all_paths_spec g hwf hacyc
  have hiff' : ∀ p, p ∈ ps ↔ (p ≠ [] ∧ FollowsOutbounds g p ∧
      ∃ e, p.head? = some e ∧ g.efrom e ∈ g.nodes) := by
    intro p
    rw [hiff p]
    constructor
    · rintro ⟨hne, v, hv, hc⟩
      refine ⟨hne, isChain_follows g hwf p v hc, ?_⟩
      cases p with
      | nil => exact absurd rfl hne
      | cons e es =>
        refine ⟨e, rfl, ?_⟩
        rw [hwf.from_eq v e hc.1]
        exact hv
    · rintro ⟨hne, hf, e, he, hmem⟩
      exact ⟨hne, g.efrom e, hmem, follows_isChain g p e he hf⟩
  refine ⟨ps, hok, hiff', ?_⟩
  intro p q r hp hqne heq
  obtain ⟨hne, v, hv, hc⟩ := (hiff p).mp hp
  subst heq
  exact (hiff q).mpr ⟨hqne, v, hv, isChain_append_left g v q r hc⟩

/-- C1 witness: the test graph of src/graph.rs satisfies the hypotheses
and the characterization. -/
theorem c1_all_paths_exact_witness :
    ∃ ps, all_paths G1 = some (Except.ok ps) ∧
      (∀ p, p ∈ ps ↔ (p ≠ [] ∧ FollowsOutbounds G1 p ∧
        ∃ e, p.head? = some e ∧ G1.efrom e ∈ G1.nodes)) ∧
      (∀ p q r, p ∈ ps → q ≠ [] → p = q ++ r → q ∈ ps) :=
  c1_all_paths_exact G1 G1_wf G1_acyclic

/-- C2 (amended): whenever a node listed in `nodes()` is reachable from
itself via at least one edge, the enumeration never succeeds: for every
fuel bound the fueled `all_paths` does not return `Ok` — it reports
`CyclicGraphError` or runs out of fuel (the Rust recursion diverges). -/
theorem c2_cycle_never_ok (g : DiGraph N E)
    (hcyc : ∃ v p l, v ∈ g.nodes ∧ IsChain g v p ∧ p.getLast? = some l ∧
      g.eto l = v) :
    ∀ fuel ps, allPathsFuel g fuel ≠ some (Except.ok ps) :=
  allPathsFuel_ne_ok_of_cycle g hcyc

/-- C2 witness: on the one-node self-loop graph the enumeration indeed
never returns `Ok` (it returns `Err(CyclicGraphError)`). -/
theorem c2_cycle_never_ok_witness :
    allPathsFuel G3 1 ≠ some (Except.ok []) :=
  c2_cycle_never_ok G3
    ⟨0, [(0, 0)], (0, 0), by decide, by decide, by decide, rfl⟩ 1 []

/-- C2 counterexample: `G2` contains a directed cycle (1 → 2 → 1), yet
`all_paths` does not fail with `CyclicGraphError`: the search seeded at
node 0 chases the cycle forever, so the embedded computation exhausts its
fuel (`none`), modelling the Rust recursion that never returns. -/
theorem c2_counterexample : HasCycle G2 ∧ all_paths G2 = none :=
  ⟨⟨1, [(1, 2), (2, 1)], (2, 1), by decide, rfl, rfl⟩,
    allPathsFuel_G2_none _⟩

/-- C9: path enumeration is deterministic — two runs of `all_paths` on the
same graph that both succeed return the same collection, hence in
particular the same set of paths. -/
theorem c9_enumeration_deterministic (g : DiGraph N E)
    (ps₁ ps₂ : List (List E)) (h1 : all_paths g = some (Except.ok ps₁))
    (h2 : all_paths g = some (Except.ok ps₂)) :
    ps₁ = ps₂ ∧ ∀ p, p ∈ ps₁ ↔ p ∈ ps₂ := by
  rw [h1] at h2
  have := Option.some.inj h2
  have heq := Except.ok.inj this
  exact ⟨heq, fun p => by rw [heq]⟩

/-- C9 witness: instantiated on the edgeless one-node graph. -/
theorem c9_enumeration_deterministic_witness :
    ([] : List (List (Nat × Nat))) = [] :=
  (c9_enumeration_deterministic G0 [] [] rfl rfl).1

/-!
Embedding of src/diagram.rs.  `diagram_commutes` only ever sees its sets
and maps through the trait objects `Rc<dyn SetLike>` and `dyn Mappable`,
so a diagram is embedded over an arbitrary element type `El` (standing for
`Rc<dyn Element>`) with the trait methods as function fields:

* `SetObj.check` / `SetObj.filter` return `Option Bool`: `none` models the
  panic of the `downcast_ref::<T>().unwrap()` inside `SetLike::check` /
  `SetLike::filter` (src/diagram.rs lines 165-171) when the element's
  runtime type is not the set's type;
* `MapObj.map` returns `Option El`: `none` models `Mappable::map`
  returning `None` on a type mismatch (src/diagram.rs lines 252-258);
* `Diagram.beq` / `Diagram.ename` model `Element::eq` / `Element::name`.

The typed layer (`TypedDiagram` below) then instantiates `El` with a
sigma type of tagged values and recovers these trait objects exactly as
the `Set<T, P, F>`, `ValueMap<T, U>` and blanket `Element` impls build
them.
-/

/-- Embeds `DiEdge` (src/diagram.rs lines 178-183). -/
structure DiEdge where
  from_ : Nat
  to_ : Nat
  ix : Nat
deriving DecidableEq

/-- Embeds the `SetLike` trait object view of a set (src/diagram.rs lines
61-69): generating elements, the `check` predicate and the `filter`
predicate (both may panic on a failed downcast, hence `Option Bool`). -/
structure SetObj (El : Type) where
  elements : List El
  check : El → Option Bool
  filter : El → Option Bool

/-- Embeds `Map` (src/diagram.rs lines 276-281): from/to set indices, the
type-erased `Mappable` and the display name. -/
structure MapObj (El : Type) where
  from_ : Nat
  to_ : Nat
  map : El → Option El
  name : String

/-- Embeds `Diagram` (src/diagram.rs lines 299-302) together with the
element trait methods `eq` and `name` (src/diagram.rs lines 55-59). -/
structure Diagram (El : Type) where
  sets : List (SetObj El)
  maps : List (MapObj El)
  beq : El → El → Bool
  ename : El → String

/-- Embeds `CommutativeDiagramResult` (src/diagram.rs lines 304-308). -/
inductive CommutativeDiagramResult where
  | commutes
  | doesNotCommute (reason : String)
deriving DecidableEq

/-- Embeds `CommutativeDiagramError` (src/diagram.rs lines 316-320). -/
inductive CommutativeDiagramError where
  | cyclicGraphError
  | propertyCheckError (message : String)
deriving DecidableEq

/-- The `enumerate().filter(from == node).map(DiEdge{..})` pipeline of the
diagram's `outbounds` (src/diagram.rs lines 206-240), with `ix` the running
enumeration index. -/
def outboundsAux {El : Type} (v : Nat) : List (MapObj El) → Nat → List DiEdge
  | [], _ => []
  | m :: rest, ix =>
    if m.from_ = v then
      ⟨m.from_, m.to_, ix⟩ :: outboundsAux v rest (ix + 1)
    else
      outboundsAux v rest (ix + 1)

/-- Embeds `impl DiGraph for Diagram` (src/diagram.rs lines 197-241):
nodes are the set indices `0..sets.len()`, edges come from the maps. -/
def Diagram.graph {El : Type} (d : Diagram El) : DiGraph Nat DiEdge where
  nodes := List.range d.sets.length
  outbounds v := outboundsAux v d.maps 0
  efrom e := e.from_
  eto e := e.to_

/-- Rust's `Debug` escaping of one character (the common escapes used by
`format!("{:?}", string)`). -/
def rustDebugChar (c : Char) : String :=
  if c = '\\' then "\\\\"
  else if c = '\"' then "\\\""
  else if c = '\n' then "\\n"
  else if c = '\t' then "\\t"
  else if c = '\r' then "\\r"
  else c.toString

/-- Models `format!("{:?}", s)` for a Rust `String`: quotes plus escaping.
Used by the two `PropertyCheckError` messages, which format `name()` with
the `Debug` formatter (src/diagram.rs lines 351 and 369/388). -/
def rustDebug (s : String) : String :=
  "\"" ++ String.join (s.toList.map rustDebugChar) ++ "\""

/-- The `path.iter().map(|edge| maps[edge.ix].name).join(" -> ")`
description built for a `DoesNotCommute` reason (src/diagram.rs lines
395-405).  Indexing out of range cannot happen where this is used (both
replays already indexed exactly these maps), so it is rendered as the
empty string. -/
def pathDescription {El : Type} (d : Diagram El) (p : List DiEdge) : String :=
  String.intercalate " -> " (p.map fun e => ((d.maps.get? e.ix).map MapObj.name).getD "")

/-- Outcome of replaying one element through one path (the per-edge loops
at src/diagram.rs lines 356-371 and 375-390). -/
inductive ReplayRes (El : Type) where
  | panic
  | filtered
  | checkFailed (e : El)
  | done (e : El)
deriving DecidableEq

/-- Replays an element along a path: index the map and the destination set
(`diagram.maps[edge.ix]`, `diagram.sets[*edge.to()]`), apply the map and
unwrap (`panic` on `None`), then the destination set's `filter` (skip on
false) and `check` (fail on false), and continue with the mapped value
(src/diagram.rs lines 356-371). -/
def replay {El : Type} (d : Diagram El) : El → List DiEdge → ReplayRes El
  | el, [] => ReplayRes.done el
  | el, edge :: rest =>
    match d.maps.get? edge.ix, d.sets.get? edge.to_ with
    | some m, some s =>
      match m.map el with
      | none => ReplayRes.panic
      | some el' =>
        match s.filter el' with
        | none => ReplayRes.panic
        | some false => ReplayRes.filtered
        | some true =>
          match s.check el' with
          | none => ReplayRes.panic
          | some false => ReplayRes.checkFailed el'
          | some true => replay d el' rest
    | _, _ => ReplayRes.panic

/-- The `'outer: for element in source_elements` loop (src/diagram.rs
lines 342-422) for one pair of matching paths.  Result: `none` models a
panic, `some none` means the loop ran to completion (continue with the
next pair), `some (some r)` an early `return r` out of
`diagram_commutes`.  The path_b check-failure message reproduces the
source faithfully: it formats `path_a_element.name()` (src/diagram.rs
line 388). -/
def elemsLoop {El : Type} (d : Diagram El) (sourceSet : SetObj El)
    (pathA pathB : List DiEdge) :
    List El →
      Option (Option (Except CommutativeDiagramError CommutativeDiagramResult))
  | [] => some none
  | el :: rest =>
    match sourceSet.filter el with
    | none => none
    | some false => elemsLoop d sourceSet pathA pathB rest
    | some true =>
      match sourceSet.check el with
      | none => none
      | some false =>
        some (some (Except.error (CommutativeDiagramError.propertyCheckError
          ("Element does not satisfy source set property: " ++
            rustDebug (d.ename el)))))
      | some true =>
        match replay d el pathA with
        | ReplayRes.panic => none
        | ReplayRes.filtered => elemsLoop d sourceSet pathA pathB rest
        | ReplayRes.checkFailed bad =>
          some (some (Except.error (CommutativeDiagramError.propertyCheckError
            ("Element does not satisfy target set property: " ++
              rustDebug (d.ename bad)))))
        | ReplayRes.done finalA =>
          match replay d el pathB with
          | ReplayRes.panic => none
          | ReplayRes.filtered => elemsLoop d sourceSet pathA pathB rest
          | ReplayRes.checkFailed _ =>
            some (some (Except.error (CommutativeDiagramError.propertyCheckError
              ("Element does not satisfy target set property: " ++
                rustDebug (d.ename finalA)))))
          | ReplayRes.done finalB =>
            if d.beq finalA finalB then
              elemsLoop d sourceSet pathA pathB rest
            else
              some (some (Except.ok (CommutativeDiagramResult.doesNotCommute
                (pathDescription d pathA ++ " and " ++ pathDescription d pathB ++
                  " don't agree on " ++ d.ename el ++ ". Left gets " ++
                  d.ename finalA ++ " while right gets " ++ d.ename finalB))))

/-- The inner `for path_b in &all_possible_paths` loop (src/diagram.rs
lines 328-424): match first-from and last-to, look up the common source
set (`unwrap` of `first()` and the `sets[..]` index are the `none`
cases), then run the element loop. -/
def pairsB {El : Type} (d : Diagram El) (pathA : List DiEdge) :
    List (List DiEdge) →
      Option (Option (Except CommutativeDiagramError CommutativeDiagramResult))
  | [] => some none
  | pathB :: rest =>
    if pathA.head?.map DiEdge.from_ = pathB.head?.map DiEdge.from_ ∧
        pathA.getLast?.map DiEdge.to_ = pathB.getLast?.map DiEdge.to_ then
      match pathA.head? with
      | none => none
      | some e0 =>
        match d.sets.get? e0.from_ with
        | none => none
        | some sourceSet =>
          match elemsLoop d sourceSet pathA pathB sourceSet.elements with
          | none => none
          | some (some r) => some (some r)
          | some none => pairsB d pathA rest
    else
      pairsB d pathA rest

/-- The outer `for path_a in &all_possible_paths` loop (src/diagram.rs
lines 327-425). -/
def pairsA {El : Type} (d : Diagram El) (allPs : List (List DiEdge)) :
    List (List DiEdge) →
      Option (Option (Except CommutativeDiagramError CommutativeDiagramResult))
  | [] => some none
  | pathA :: rest =>
    match pairsB d pathA allPs with
    | none => none
    | some (some r) => some (some r)
    | some none => pairsA d allPs rest

/-- Embeds `diagram_commutes` (src/diagram.rs lines 322-428): enumerate
all paths (mapping `CyclicGraphError` into the diagram error), run every
ordered pair of co-terminal paths, and return `Commutes` when no pair
produced an early result.  `none` models a panic or divergence. -/
def diagram_commutes {El : Type} (d : Diagram El) :
    Option (Except CommutativeDiagramError CommutativeDiagramResult) :=
  match all_paths d.graph with
  | none => none
  | some (Except.error _) =>
    some (Except.error CommutativeDiagramError.cyclicGraphError)
  | some (Except.ok allPs) =>
    match pairsA d allPs allPs with
    | none => none
    | some (some r) => some r
    | some none => some (Except.ok CommutativeDiagramResult.commutes)

/-- The element loop can only early-return an error or a disagreement,
never `Commutes`. -/
theorem elemsLoop_ne_commutes {El : Type} (d : Diagram El) (s : SetObj El)
    (pa pb : List DiEdge) :
    ∀ els, elemsLoop d s pa pb els ≠
      some (some (Except.ok CommutativeDiagramResult.commutes)) := by
  intro els
  induction els with
  | nil => simp [elemsLoop]
  | cons y rest ih =>
    cases hf : s.filter y with
    | none => simp [elemsLoop, hf]
    | some b =>
      cases b with
      | false => simpa [elemsLoop, hf] using ih
      | true =>
        cases hc : s.check y with
        | none => simp [elemsLoop, hf, hc]
        | some b' =>
          cases b' with
          | false => simp [elemsLoop, hf, hc]
          | true =>
            cases hra : replay d y pa with
            | panic => simp [elemsLoop, hf, hc, hra]
            | filtered => simpa [elemsLoop, hf, hc, hra] using ih
            | checkFailed bad => simp [elemsLoop, hf, hc, hra]
            | done a =>
              cases hrb : replay d y pb with
              | panic => simp [elemsLoop, hf, hc, hra, hrb]
              | filtered => simpa [elemsLoop, hf, hc, hra, hrb] using ih
              | checkFailed bad => simp [elemsLoop, hf, hc, hra, hrb]
              | done b2 =>
                by_cases hbeq : d.beq a b2 = true
                · simpa [elemsLoop, hf, hc, hra, hrb, hbeq] using ih
                · simp [elemsLoop, hf, hc, hra, hrb, hbeq]

/-- A generating element that passes the source filter but fails the
source check prevents the element loop from running to completion. -/
theorem elemsLoop_bad {El : Type} (d : Diagram El) (s : SetObj El)
    (pa pb : List DiEdge) (x : El) (hfil : s.filter x = some true)
    (hchk : s.check x = some false) :
    ∀ els, x ∈ els → elemsLoop d s pa pb els ≠ some none := by
  intro els
  induction els with
  | nil => intro h; simp at h
  | cons y rest ih =>
    intro hmem
    rcases List.mem_cons.mp hmem with heq | hmem'
    · subst heq
      simp [elemsLoop, hfil, hchk]
    · cases hf : s.filter y with
      | none => simp [elemsLoop, hf]
      | some b =>
        cases b with
        | false => simpa [elemsLoop, hf] using ih hmem'
        | true =>
          cases hc : s.check y with
          | none => simp [elemsLoop, hf, hc]
          | some b' =>
            cases b' with
            | false => simp [elemsLoop, hf, hc]
            | true =>
              cases hra : replay d y pa with
              | panic => simp [elemsLoop, hf, hc, hra]
              | filtered => simpa [elemsLoop, hf, hc, hra] using ih hmem'
              | checkFailed bad => simp [elemsLoop, hf, hc, hra]
              | done a =>
                cases hrb : replay d y pb with
                | panic => simp [elemsLoop, hf, hc, hra, hrb]
                | filtered => simpa [elemsLoop, hf, hc, hra, hrb] using ih hmem'
                | checkFailed bad => simp [elemsLoop, hf, hc, hra, hrb]
                | done b2 =>
                  by_cases hbeq : d.beq a b2 = true
                  · simpa [elemsLoop, hf, hc, hra, hrb, hbeq] using ih hmem'
                  · simp [elemsLoop, hf, hc, hra, hrb, hbeq]

/-- Any early return out of the path_b loop comes from the element loop of
some listed path_b whose endpoints match path_a's. -/
theorem pairsB_some_eq {El : Type} (d : Diagram El) (pa : List DiEdge)
    (r : Except CommutativeDiagramError CommutativeDiagramResult) :
    ∀ lst, pairsB d pa lst = some (some r) →
      ∃ pb, pb ∈ lst ∧ ∃ e0 s, pa.head? = some e0 ∧
        d.sets.get? e0.from_ = some s ∧
        elemsLoop d s pa pb s.elements = some (some r) := by
  intro lst
  induction lst with
  | nil => intro h; simp [pairsB] at h
  | cons q rest ih =>
    intro h
    rw [pairsB] at h
    split at h
    · cases hh : pa.head? with
      | none => simp only [hh] at h; exact absurd h (by simp)
      | some e0 =>
        simp only [hh] at h
        cases hg : d.sets.get? e0.from_ with
        | none => simp only [hg] at h; exact absurd h (by simp)
        | some s =>
          simp only [hg] at h
          cases hel : elemsLoop d s pa q s.elements with
          | none => simp only [hel] at h; exact absurd h (by simp)
          | some o =>
            cases o with
            | none =>
              simp only [hel] at h
              obtain ⟨pb, hpb, rest'⟩ := ih h
              rw [hh] at rest'
              exact ⟨pb, by simp [hpb], rest'⟩
            | some r' =>
              simp only [hel, Option.some.injEq] at h
              subst h
              exact ⟨q, by simp, e0, s, rfl, hg, hel⟩
    · obtain ⟨pb, hpb, rest'⟩ := ih h
      exact ⟨pb, by simp [hpb], rest'⟩

/-- Any early return out of the path_a loop comes from some listed
path_a's inner loop. -/
theorem pairsA_some_eq {El : Type} (d : Diagram El)
    (allPs : List (List DiEdge))
    (r : Except CommutativeDiagramError CommutativeDiagramResult) :
    ∀ lst, pairsA d allPs lst = some (some r) →
      ∃ pa, pa ∈ lst ∧ pairsB d pa allPs = some (some r) := by
  intro lst
  induction lst with
  | nil => intro h; simp [pairsA] at h
  | cons q rest ih =>
    intro h
    rw [pairsA] at h
    cases hq : pairsB d q allPs with
    | none => simp only [hq] at h; exact absurd h (by simp)
    | some o =>
      cases o with
      | none =>
        simp only [hq] at h
        obtain ⟨pa, hpa, h'⟩ := ih h
        exact ⟨pa, by simp [hpa], h'⟩
      | some r' =>
        simp only [hq, Option.some.injEq] at h
        subst h
        exact ⟨q, by simp, hq⟩

/-- A path whose source set holds a filter-passing, check-failing element
keeps the path_b loop from completing. -/
theorem pairsB_bad {El : Type} (d : Diagram El) (p : List DiEdge) (e0 : DiEdge)
    (s : SetObj El) (x : El) (hhead : p.head? = some e0)
    (hs : d.sets.get? e0.from_ = some s) (hx : x ∈ s.elements)
    (hfil : s.filter x = some true) (hchk : s.check x = some false) :
    ∀ lst, p ∈ lst → pairsB d p lst ≠ some none := by
  intro lst
  induction lst with
  | nil => intro h; simp at h
  | cons q rest ih =>
    intro hmem h
    rw [pairsB] at h
    rcases List.mem_cons.mp hmem with heq | hmem'
    · subst heq
      rw [if_pos ⟨rfl, rfl⟩] at h
      simp only [hhead, hs] at h
      cases hel : elemsLoop d s p p s.elements with
      | none => simp only [hel] at h; exact absurd h (by simp)
      | some o =>
        cases o with
        | none => exact elemsLoop_bad d s p p x hfil hchk s.elements hx hel
        | some r' => simp only [hel] at h; exact absurd h (by simp)
    · split at h
      · cases hh : p.head? with
        | none => simp only [hh] at h; exact absurd h (by simp)
        | some e0' =>
          simp only [hh] at h
          cases hg : d.sets.get? e0'.from_ with
          | none => simp only [hg] at h; exact absurd h (by simp)
          | some s' =>
            simp only [hg] at h
            cases hel : elemsLoop d s' p q s'.elements with
            | none => simp only [hel] at h; exact absurd h (by simp)
            | some o =>
              cases o with
              | none => simp only [hel] at h; exact ih hmem' h
              | some r' => simp only [hel] at h; exact absurd h (by simp)
      · exact ih hmem' h

theorem pairsA_bad {El : Type} (d : Diagram El) (allPs : List (List DiEdge))
    (p : List DiEdge) (hpB : pairsB d p allPs ≠ some none) :
    ∀ lst, p ∈ lst → pairsA d allPs lst ≠ some none := by
  intro lst
  induction lst with
  | nil => intro h; simp at h
  | cons q rest ih =>
    intro hmem h
    rw [pairsA] at h
    rcases List.mem_cons.mp hmem with heq | hmem'
    · subst heq
      cases hq : pairsB d p allPs with
      | none => simp only [hq] at h; exact absurd h (by simp)
      | some o =>
        cases o with
        | none => exact hpB hq
        | some r' => simp only [hq] at h; exact absurd h (by simp)
    · cases hq : pairsB d q allPs with
      | none => simp only [hq] at h; exact absurd h (by simp)
      | some o =>
        cases o with
        | none => simp only [hq] at h; exact ih hmem' h
        | some r' => simp only [hq] at h; exact absurd h (by simp)

/-- A single-set diagram (no maps) whose only generating element fails
the set's check predicate. -/
def dLoneBadCheck : Diagram Int where
  sets := [⟨[5], fun _ => some false, fun _ => some true⟩]
  maps := []
  beq := fun a b => a == b
  ename := fun x => toString x

/-- Two sets joined by the identity map; the source's only generating
element fails the source check. -/
def dBadCheckReached : Diagram Int where
  sets := [⟨[5], fun _ => some false, fun _ => some true⟩,
           ⟨[], fun _ => some true, fun _ => some true⟩]
  maps := [⟨0, 1, fun x => some x, "id"⟩]
  beq := fun a b => a == b
  ename := fun x => toString x

/-- Two sets joined by a successor map; the destination set's filter
rejects every image. -/
def dFilteredHop : Diagram Int where
  sets := [⟨[0], fun _ => some true, fun _ => some true⟩,
           ⟨[], fun _ => some true, fun x => some (decide (x < 0))⟩]
  maps := [⟨0, 1, fun x => some (x + 1), "inc"⟩]
  beq := fun a b => a == b
  ename := fun x => toString x

/-- Two parallel maps `f = +1` and `g = +2` between two sets: the diagram
does not commute on the generating element 0. -/
def dDisagree : Diagram Int where
  sets := [⟨[0], fun _ => some true, fun _ => some true⟩,
           ⟨[], fun _ => some true, fun _ => some true⟩]
  maps := [⟨0, 1, fun x => some (x + 1), "f"⟩,
           ⟨0, 1, fun x => some (x + 2), "g"⟩]
  beq := fun a b => a == b
  ename := fun x => toString x

/-- Like `dDisagree` but the destination set's check accepts only values
at most 1: the image of `g` fails the intermediate check during the
path_b replay. -/
def dBadCheckPathB : Diagram Int where
  sets := [⟨[0], fun _ => some true, fun _ => some true⟩,
           ⟨[], fun x => some (decide (x ≤ 1)), fun _ => some true⟩]
  maps := [⟨0, 1, fun x => some (x + 1), "f"⟩,
           ⟨0, 1, fun x => some (x + 2), "g"⟩]
  beq := fun a b => a == b
  ename := fun x => toString x

/-- C3 (amended): a generating element of set `i` that passes `i`'s filter
but fails `i`'s check prevents `diagram_commutes` from answering
`Commutes`, provided at least one enumerated path originates at set `i`.
(It need not produce `PropertyCheckError`: a disagreement found at an
earlier pair, or a panic, may preempt it — but the run can never end in
`Commutes`, because the self-pair of that path reaches the failing
element.) -/
theorem c3_failing_check_blocks_commutes {El : Type} (d : Diagram El)
    (ps : List (List DiEdge)) (p : List DiEdge) (e0 : DiEdge) (s : SetObj El)
    (x : El) (hps : all_paths d.graph = some (Except.ok ps)) (hp : p ∈ ps)
    (hhead : p.head? = some e0) (hs : d.sets.get? e0.from_ = some s)
    (hx : x ∈ s.elements) (hfil : s.filter x = some true)
    (hchk : s.check x = some false) :
    diagram_commutes d ≠ some (Except.ok CommutativeDiagramResult.commutes) := by
  intro h
  rw [diagram_commutes] at h
  simp only [hps] at h
  cases hA : pairsA d ps ps with
  | none => simp only [hA] at h; exact absurd h (by simp)
  | some o =>
    cases o with
    | none =>
      exact pairsA_bad d ps p
        (pairsB_bad d p e0 s x hhead hs hx hfil hchk ps hp) ps hp hA
    | some r =>
      simp only [hA, Option.some.injEq] at h
      subst h
      obtain ⟨pa, _, hB⟩ := pairsA_some_eq d ps _ ps hA
      obtain ⟨pb, _, e0', s', _, _, hel⟩ := pairsB_some_eq d pa _ ps hB
      exact elemsLoop_ne_commutes d s' pa pb s'.elements hel

/-- C3 witness: on `dBadCheckReached` the hypotheses hold concretely (the
run indeed ends in `PropertyCheckError` here, not in `Commutes`). -/
theorem c3_failing_check_blocks_commutes_witness :
    diagram_commutes dBadCheckReached ≠
      some (Except.ok CommutativeDiagramResult.commutes) :=
  c3_failing_check_blocks_commutes dBadCheckReached [[⟨0, 1, 0⟩]] [⟨0, 1, 0⟩]
    ⟨0, 1, 0⟩ ⟨[5], fun _ => some false, fun _ => some true⟩ 5
    (by decide) (by decide) rfl rfl (by decide) rfl rfl

/-- C3 counterexample: in `dLoneBadCheck` the element 5 is present in the
set's generating sequence, passes the filter and fails the check, yet
`diagram_commutes` returns `Ok(Commutes)` — not `PropertyCheckError` —
because no path (hence no pair of paths) starts at that set, so its
elements are never enumerated. -/
theorem c3_counterexample :
    (∃ s, dLoneBadCheck.sets.get? 0 = some s ∧ (5 : Int) ∈ s.elements ∧
      s.filter 5 = some true ∧ s.check 5 = some false) ∧
    diagram_commutes dLoneBadCheck =
      some (Except.ok CommutativeDiagramResult.commutes) :=
  ⟨⟨⟨[5], fun _ => some false, fun _ => some true⟩, rfl, by decide, rfl, rfl⟩,
    by decide⟩

/-- C4: an element rejected by a filter is silently excluded.  First
conjunct: at a hop whose destination filter rejects the mapped value the
replay reports `filtered` — whatever the destination check would say, so
the check is not applied there.  Second conjunct: whether the source
filter rejects the element, or a hop filter rejects it during the path_a
or the path_b replay, the element loop simply continues with the
remaining generating elements — that element can produce no
`PropertyCheckError` and no `DoesNotCommute` reason. -/
theorem c4_filter_silently_excludes {El : Type} (d : Diagram El)
    (s : SetObj El) (pa pb : List DiEdge) (el : El) (rest : List El) :
    (∀ e p m s' el', d.maps.get? e.ix = some m → d.sets.get? e.to_ = some s' →
      m.map el = some el' → s'.filter el' = some false →
      replay d el (e :: p) = ReplayRes.filtered) ∧
    (s.filter el = some false ∨
      (s.filter el = some true ∧ s.check el = some true ∧
        replay d el pa = ReplayRes.filtered) ∨
      (s.filter el = some true ∧ s.check el = some true ∧
        (∃ a, replay d el pa = ReplayRes.done a ∧
          replay d el pb = ReplayRes.filtered)) →
      elemsLoop d s pa pb (el :: rest) = elemsLoop d s pa pb rest) := by
  constructor
  · intro e p m s' el' hm hs' hmap hfil
    simp only [replay, hm, hs', hmap, hfil]
  · rintro (hfil | ⟨hfil, hchk, hra⟩ | ⟨hfil, hchk, a, hra, hrb⟩)
    · simp [elemsLoop, hfil]
    · simp [elemsLoop, hfil, hchk, hra]
    · simp [elemsLoop, hfil, hchk, hra, hrb]

/-- C4 witness: in `dFilteredHop` the hop filter rejects the image of 0,
the replay is `filtered`, and the loop over `[0]` completes silently. -/
theorem c4_filter_silently_excludes_witness :
    replay dFilteredHop 0 [⟨0, 1, 0⟩] = ReplayRes.filtered ∧
    elemsLoop dFilteredHop ⟨[0], fun _ => some true, fun _ => some true⟩
      [⟨0, 1, 0⟩] [⟨0, 1, 0⟩] [0] =
    elemsLoop dFilteredHop ⟨[0], fun _ => some true, fun _ => some true⟩
      [⟨0, 1, 0⟩] [⟨0, 1, 0⟩] [] :=
  ⟨(c4_filter_silently_excludes dFilteredHop
      ⟨[0], fun _ => some true, fun _ => some true⟩ [⟨0, 1, 0⟩] [⟨0, 1, 0⟩]
      0 []).1 ⟨0, 1, 0⟩ [] ⟨0, 1, fun x => some (x + 1), "inc"⟩
      ⟨[], fun _ => some true, fun x => some (decide (x < 0))⟩ 1
      rfl rfl rfl rfl,
    (c4_filter_silently_excludes dFilteredHop
      ⟨[0], fun _ => some true, fun _ => some true⟩ [⟨0, 1, 0⟩] [⟨0, 1, 0⟩]
      0 []).2 (Or.inr (Or.inl ⟨rfl, rfl, by decide⟩))⟩

/-- C5: when both replays of an eligible generating element complete with
unequal finals, the checker immediately returns `DoesNotCommute`, whose
reason names path_a's map-name sequence joined by " -> ", path_b's
likewise, the original element's display name, and both finals' display
names — exactly the `format!` of src/diagram.rs lines 411-418. -/
theorem c5_disagreement_reason {El : Type} (d : Diagram El) (s : SetObj El)
    (pa pb : List DiEdge) (el a b : El) (rest : List El)
    (hfil : s.filter el = some true) (hchk : s.check el = some true)
    (hra : replay d el pa = ReplayRes.done a)
    (hrb : replay d el pb = ReplayRes.done b) (hne : d.beq a b = false) :
    elemsLoop d s pa pb (el :: rest) =
      some (some (Except.ok (CommutativeDiagramResult.doesNotCommute
        (pathDescription d pa ++ " and " ++ pathDescription d pb ++
          " don't agree on " ++ d.ename el ++ ". Left gets " ++
          d.ename a ++ " while right gets " ++ d.ename b)))) := by
  simp [elemsLoop, hfil, hchk, hra, hrb, hne]

/-- C5 witness: on `dDisagree` the loop reports the literal reason string
the Rust code formats. -/
theorem c5_disagreement_reason_witness :
    elemsLoop dDisagree ⟨[0], fun _ => some true, fun _ => some true⟩
      [⟨0, 1, 0⟩] [⟨0, 1, 1⟩] [0] =
    some (some (Except.ok (CommutativeDiagramResult.doesNotCommute
      "f and g don't agree on 0. Left gets 1 while right gets 2"))) :=
  c5_disagreement_reason dDisagree
    ⟨[0], fun _ => some true, fun _ => some true⟩ [⟨0, 1, 0⟩] [⟨0, 1, 1⟩]
    0 1 2 [] rfl rfl (by decide) (by decide) (by decide)

/-- C6 (the code bug, evaluated): on `dBadCheckPathB` the check failure
happens during the path_b replay on the value 2 (named "2"), but the
`PropertyCheckError` message formats `path_a_element.name()` — the
display form "1" of path_a's final value — instead of the failing
element's (src/diagram.rs line 388 uses `path_a_element` in the path_b
loop). -/
theorem c6_wrong_element_named :
    diagram_commutes dBadCheckPathB =
      some (Except.error (CommutativeDiagramError.propertyCheckError
        ("Element does not satisfy target set property: " ++ rustDebug "1"))) ∧
    replay dBadCheckPathB 0 [⟨0, 1, 1⟩] = ReplayRes.checkFailed 2 ∧
    dBadCheckPathB.ename 2 = "2" ∧
    rustDebug (dBadCheckPathB.ename 2) ≠ rustDebug "1" := by
  refine ⟨by decide, by decide, rfl, by decide⟩

/-- C7: a diagram made of a single set and no maps — whatever its
elements, check and filter predicates, and whatever the element
operations — enumerates an empty path collection and commutes trivially;
since the result is the same for every `s`, `beq` and `ename`, no element
is enumerated and no predicate is invoked. -/
theorem c7_single_set_trivial {El : Type} (s : SetObj El)
    (beq : El → El → Bool) (ename : El → String) :
    all_paths (Diagram.graph ⟨[s], [], beq, ename⟩) = some (Except.ok []) ∧
    diagram_commutes ⟨[s], [], beq, ename⟩ =
      some (Except.ok CommutativeDiagramResult.commutes) :=
  ⟨rfl, rfl⟩

section Typed

/-!
The typed layer: how `Set<T, P, F>`, `ValueMap<T, U>` and the blanket
`impl<T> Element for T` build the trait objects the checker consumes.
`Ty` stands for Rust's `TypeId`, `Val t` for the concrete value type
tagged `t`; a type-erased `Rc<dyn Element>` is a tagged value `Sigma Val`.
-/

variable {Ty : Type} [DecidableEq Ty] {Val : Ty → Type}

/-- `as_any().downcast_ref::<T>()`: succeeds exactly when the runtime tag
matches the requested type. -/
def downcast (t : Ty) (el : Sigma Val) : Option (Val t) :=
  if h : el.1 = t then some (h ▸ el.2) else none

theorem downcast_eq_some (t : Ty) (el : Sigma Val) (h : el.1 = t) :
    downcast t el = some (h ▸ el.2) := by
  simp [downcast, h]

theorem downcast_self (t : Ty) (v : Val t) : downcast t ⟨t, v⟩ = some v := by
  simp [downcast]

/-- Embeds `Set<T, P, F>` (src/diagram.rs lines 71-81): a concrete element
type, generating elements, the `property` predicate and the `filter`
predicate. -/
structure TypedSet (Ty : Type) (Val : Ty → Type) where
  ty : Ty
  elements : List (Val ty)
  property : Val ty → Bool
  filter : Val ty → Bool

/-- Embeds `Map` as built by `Map::new` (src/diagram.rs lines 283-297):
indices, declared input/output types, the pure function and the name. -/
structure TypedMap (Ty : Type) (Val : Ty → Type) where
  from_ : Nat
  to_ : Nat
  inTy : Ty
  outTy : Ty
  fn : Val inTy → Val outTy
  name : String

/-- Embeds `impl SetLike for Set<T, P, F>` (src/diagram.rs lines 150-172):
elements are type-erased; `check` and `filter` downcast and unwrap — a
failed downcast is the panic `none`. -/
def TypedSet.toSetObj (s : TypedSet Ty Val) : SetObj (Sigma Val) where
  elements := s.elements.map fun v => ⟨s.ty, v⟩
  check el := (downcast s.ty el).map s.property
  filter el := (downcast s.ty el).map s.filter

/-- Embeds `impl Mappable for ValueMap<T, U>` (src/diagram.rs lines
247-259): downcast the input; on success apply and re-erase, else `None`. -/
def TypedMap.toMapObj (m : TypedMap Ty Val) : MapObj (Sigma Val) where
  from_ := m.from_
  to_ := m.to_
  map el := (downcast m.inTy el).map fun v => ⟨m.outTy, m.fn v⟩
  name := m.name

/-- A typed diagram also carries the per-concrete-type `PartialEq` and
`Debug` capabilities the blanket `impl<T> Element for T` (src/diagram.rs
lines 430-449) relies on. -/
structure TypedDiagram (Ty : Type) (Val : Ty → Type) where
  sets : List (TypedSet Ty Val)
  maps : List (TypedMap Ty Val)
  beqv : (t : Ty) → Val t → Val t → Bool
  namev : (t : Ty) → Val t → String

/-- Embeds `Element::eq` from the blanket impl (src/diagram.rs lines
438-444): downcast `other` to `self`'s concrete type; a failed downcast
compares unequal rather than erroring. -/
def dynEq (beqv : (t : Ty) → Val t → Val t → Bool) (a b : Sigma Val) : Bool :=
  match downcast a.1 b with
  | some w => beqv a.1 a.2 w
  | none => false

/-- The fully erased diagram the checker actually runs on. -/
def TypedDiagram.toDiagram (td : TypedDiagram Ty Val) : Diagram (Sigma Val) where
  sets := td.sets.map TypedSet.toSetObj
  maps := td.maps.map TypedMap.toMapObj
  beq := dynEq td.beqv
  ename el := td.namev el.1 el.2

/-- The construction-time contract of a diagram (spec section 3, Diagram
invariant): every map's indices are valid and its declared input/output
types are the types of its endpoint sets. -/
def WellTyped (td : TypedDiagram Ty Val) : Prop :=
  ∀ m ∈ td.maps, ∃ s1 s2,
    td.sets.get? m.from_ = some s1 ∧ td.sets.get? m.to_ = some s2 ∧
    m.inTy = s1.ty ∧ m.outTy = s2.ty

end Typed

theorem mem_outboundsAux {El : Type} (v : Nat) :
    ∀ (maps : List (MapObj El)) (ix : Nat) (e : DiEdge),
      e ∈ outboundsAux v maps ix ↔
        ∃ j m, maps.get? j = some m ∧ m.from_ = v ∧
          e = ⟨v, m.to_, ix + j⟩ := by
  intro maps
  induction maps with
  | nil => intro ix e; simp [outboundsAux]
  | cons m0 rest ih =>
    intro ix e
    by_cases h0 : m0.from_ = v
    · simp only [outboundsAux, if_pos h0, List.mem_cons]
      constructor
      · rintro (he | he)
        · exact ⟨0, m0, rfl, h0, by rw [he, h0]; simp⟩
        · obtain ⟨j, m, hj, hf, he'⟩ := (ih (ix + 1) e).mp he
          refine ⟨j + 1, m, by simpa using hj, hf, ?_⟩
          rw [he']
          simp [Nat.add_assoc, Nat.add_comm 1 j]
      · rintro ⟨j, m, hj, hf, he'⟩
        cases j with
        | zero =>
          simp only [List.get?] at hj
          cases hj
          left
          rw [he']
          simp [h0]
        | succ j' =>
          right
          refine (ih (ix + 1) e).mpr ⟨j', m, by simpa using hj, hf, ?_⟩
          rw [he']
          simp [Nat.add_assoc, Nat.add_comm 1 j']
    · simp only [outboundsAux, if_neg h0]
      rw [ih (ix + 1) e]
      constructor
      · rintro ⟨j, m, hj, hf, he'⟩
        refine ⟨j + 1, m, by simpa using hj, hf, ?_⟩
        rw [he']
        simp [Nat.add_assoc, Nat.add_comm 1 j]
      · rintro ⟨j, m, hj, hf, he'⟩
        cases j with
        | zero =>
          simp only [List.get?] at hj
          cases hj
          exact absurd hf h0
        | succ j' =>
          refine ⟨j', m, by simpa using hj, hf, ?_⟩
          rw [he']
          simp [Nat.add_assoc, Nat.add_comm 1 j']

/-- The edges leaving node `v` in a diagram's graph are exactly the
enumerated maps whose from-index is `v`. -/
theorem graph_outbounds_mem {El : Type} (d : Diagram El) (v : Nat) (e : DiEdge) :
    e ∈ d.graph.outbounds v ↔
      ∃ j m, d.maps.get? j = some m ∧ m.from_ = v ∧ e = ⟨v, m.to_, j⟩ := by
  have := mem_outboundsAux v d.maps 0 e
  simpa using this

/-- When every map's from-index is a valid set index, the diagram's graph
is well-formed. -/
theorem diagram_graph_wf {El : Type} (d : Diagram El)
    (hidx : ∀ m ∈ d.maps, m.from_ < d.sets.length) : WellFormed d.graph := by
  constructor
  · intro v e he
    obtain ⟨j, m, hj, hf, he'⟩ := (graph_outbounds_mem d v e).mp he
    rw [he']
    rfl
  · intro v e he
    obtain ⟨j, m, hj, hf, he'⟩ := (graph_outbounds_mem d v e).mp he
    have hm : m ∈ d.maps := List.get?_mem hj
    have : v < d.sets.length := hf ▸ hidx m hm
    simpa [Diagram.graph, List.mem_range] using this

section TypedProofs

variable {Ty : Type} [DecidableEq Ty] {Val : Ty → Type}

theorem toDiagram_sets_get? (td : TypedDiagram Ty Val) (i : Nat) :
    td.toDiagram.sets.get? i = (td.sets.get? i).map TypedSet.toSetObj := by
  simp [TypedDiagram.toDiagram, List.get?_map]

theorem toDiagram_maps_get? (td : TypedDiagram Ty Val) (i : Nat) :
    td.toDiagram.maps.get? i = (td.maps.get? i).map TypedMap.toMapObj := by
  simp [TypedDiagram.toDiagram, List.get?_map]

/-- On a well-typed diagram, replaying an element whose runtime type is
the chain's start-set type can never panic: every map unwrap and every
check/filter downcast succeeds along the chain. -/
theorem typed_replay_no_panic (td : TypedDiagram Ty Val)
    (hwt : WellTyped td) :
    ∀ (p : List DiEdge) (v : Nat) (ts : TypedSet Ty Val) (el : Sigma Val),
      td.sets.get? v = some ts → el.1 = ts.ty →
      IsChain td.toDiagram.graph v p →
      replay td.toDiagram el p ≠ ReplayRes.panic := by
  intro p
  induction p with
  | nil => intro v ts el _ _ _; simp [replay]
  | cons e rest ih =>
    intro v ts el hts hty hchain
    obtain ⟨he, hrest⟩ := hchain
    obtain ⟨j, mo, hj, hf, he'⟩ :=
      (graph_outbounds_mem td.toDiagram v e).mp he
    rw [toDiagram_maps_get?] at hj
    cases htm : td.maps.get? j with
    | none => rw [htm] at hj; cases hj
    | some tm =>
      rw [htm] at hj
      simp only [Option.map_some', Option.some.injEq] at hj
      subst hj
      obtain ⟨s1, s2, hs1, hs2, hin, hout⟩ := hwt tm (List.get?_mem htm)
      have hfrom_eq : tm.from_ = v := hf
      rw [hfrom_eq, hts] at hs1
      cases hs1
      have hin' : el.1 = tm.inTy := by rw [hin, ← hty]
      have hmap : (TypedMap.toMapObj tm).map el =
          some ⟨tm.outTy, tm.fn (hin' ▸ el.2)⟩ := by
        simp [TypedMap.toMapObj, downcast_eq_some tm.inTy el hin']
      have hto : td.toDiagram.sets.get? e.to_ = some s2.toSetObj := by
        have hte : e.to_ = tm.to_ := by rw [he']; rfl
        rw [hte, toDiagram_sets_get?, hs2]
        rfl
      have hixj : e.ix = j := by rw [he']
      have hjmap : td.toDiagram.maps.get? e.ix =
          some (TypedMap.toMapObj tm) := by
        rw [hixj, toDiagram_maps_get?, htm]
        rfl
      set el' : Sigma Val := ⟨tm.outTy, tm.fn (hin' ▸ el.2)⟩ with hel'
      have hty' : el'.1 = s2.ty := by rw [hel']; exact hout
      have hfil : s2.toSetObj.filter el' = some (s2.filter (hty' ▸ el'.2)) := by
        simp [TypedSet.toSetObj, downcast_eq_some s2.ty el' hty']
      have hchk : s2.toSetObj.check el' = some (s2.property (hty' ▸ el'.2)) := by
        simp [TypedSet.toSetObj, downcast_eq_some s2.ty el' hty']
      have hrest' : IsChain td.toDiagram.graph tm.to_ rest := by
        have heto : td.toDiagram.graph.eto e = tm.to_ := by rw [he']; rfl
        rw [← heto]
        exact hrest
      intro hpanic
      rw [replay] at hpanic
      simp only [hjmap, hto, hmap, hfil] at hpanic
      cases hb : s2.filter (hty' ▸ el'.2) with
      | false =>
        simp only [hb] at hpanic
        exact ReplayRes.noConfusion hpanic
      | true =>
        simp only [hb, hchk] at hpanic
        cases hb' : s2.property (hty' ▸ el'.2) with
        | false =>
          simp only [hb'] at hpanic
          exact ReplayRes.noConfusion hpanic
        | true =>
          simp only [hb'] at hpanic
          exact ih tm.to_ s2 el' hs2 hty' hrest' hpanic

/-- On a well-typed diagram the element loop of a pair of chains starting
at set `i` can never panic: source-set downcasts succeed on the set's own
elements, and both replays stay well-typed. -/
theorem typed_elemsLoop_some (td : TypedDiagram Ty Val) (hwt : WellTyped td)
    (i : Nat) (ts : TypedSet Ty Val) (hts : td.sets.get? i = some ts)
    (pa pb : List DiEdge) (hca : IsChain td.toDiagram.graph i pa)
    (hcb : IsChain td.toDiagram.graph i pb) :
    ∀ els, (∀ el ∈ els, el.1 = ts.ty) →
      elemsLoop td.toDiagram ts.toSetObj pa pb els ≠ none := by
  intro els
  induction els with
  | nil => intro _; simp [elemsLoop]
  | cons el rest ih =>
    intro hels
    have hty : el.1 = ts.ty := hels el (by simp)
    have hfil : ts.toSetObj.filter el = some (ts.filter (hty ▸ el.2)) := by
      simp [TypedSet.toSetObj, downcast_eq_some ts.ty el hty]
    have hchk : ts.toSetObj.check el = some (ts.property (hty ▸ el.2)) := by
      simp [TypedSet.toSetObj, downcast_eq_some ts.ty el hty]
    have ih' := ih fun x hx => hels x (by simp [hx])
    have hra := typed_replay_no_panic td hwt pa i ts el hts hty hca
    have hrb := typed_replay_no_panic td hwt pb i ts el hts hty hcb
    cases hb : ts.filter (hty ▸ el.2) with
    | false => simpa [elemsLoop, hfil, hb] using ih'
    | true =>
      cases hb' : ts.property (hty ▸ el.2) with
      | false => simp [elemsLoop, hfil, hchk, hb, hb']
      | true =>
        cases hrra : replay td.toDiagram el pa with
        | panic => exact absurd hrra hra
        | filtered => simpa [elemsLoop, hfil, hchk, hb, hb', hrra] using ih'
        | checkFailed bad => simp [elemsLoop, hfil, hchk, hb, hb', hrra]
        | done a =>
          cases hrrb : replay td.toDiagram el pb with
          | panic => exact absurd hrrb hrb
          | filtered =>
            simpa [elemsLoop, hfil, hchk, hb, hb', hrra, hrrb] using ih'
          | checkFailed bad =>
            simp [elemsLoop, hfil, hchk, hb, hb', hrra, hrrb]
          | done b2 =>
            by_cases hbeq : td.toDiagram.beq a b2 = true
            · simpa [elemsLoop, hfil, hchk, hb, hb', hrra, hrrb, hbeq] using ih'
            · simp [elemsLoop, hfil, hchk, hb, hb', hrra, hrrb, hbeq]

/-- A nonempty chain from a listed node, as `all_paths` emits them. -/
def ChainPath {N E : Type} (g : DiGraph N E) (p : List E) : Prop :=
  p ≠ [] ∧ ∃ v, v ∈ g.nodes ∧ IsChain g v p

/-- The head edge of a chain path of a diagram graph starts at the chain's
start node, which is a valid set index. -/
theorem chainPath_head {El : Type} (d : Diagram El) (p : List DiEdge)
    (hp : ChainPath d.graph p) :
    ∃ e0, p.head? = some e0 ∧ e0.from_ < d.sets.length ∧
      IsChain d.graph e0.from_ p := by
  obtain ⟨hne, v, hv, hc⟩ := hp
  cases p with
  | nil => exact absurd rfl hne
  | cons e es =>
    have he := hc.1
    obtain ⟨j, m, hj, hf, he'⟩ := (graph_outbounds_mem d v e).mp he
    have hfrom : e.from_ = v := by rw [he']
    refine ⟨e, rfl, ?_, by rw [hfrom]; exact hc⟩
    rw [hfrom]
    simpa [Diagram.graph, List.mem_range] using hv

theorem typed_pairsB_some (td : TypedDiagram Ty Val) (hwt : WellTyped td)
    (pa : List DiEdge) (hpa : ChainPath td.toDiagram.graph pa) :
    ∀ lst, (∀ pb ∈ lst, ChainPath td.toDiagram.graph pb) →
      pairsB td.toDiagram pa lst ≠ none := by
  intro lst
  induction lst with
  | nil => intro _; simp [pairsB]
  | cons q rest ih =>
    intro hall
    have hq : ChainPath td.toDiagram.graph q := hall q (by simp)
    have ih' := ih fun x hx => hall x (by simp [hx])
    rw [pairsB]
    split
    · next hcond =>
      obtain ⟨e0, hhead, hlt, hchain⟩ := chainPath_head td.toDiagram pa hpa
      obtain ⟨e0', hhead', hlt', hchain'⟩ := chainPath_head td.toDiagram q hq
      have hfrom_eq : e0'.from_ = e0.from_ := by
        have := hcond.1
        rw [hhead, hhead'] at this
        simpa using this.symm
      simp only [hhead]
      have hlen : td.toDiagram.sets.length = td.sets.length := by
        simp [TypedDiagram.toDiagram]
      cases hts : td.sets.get? e0.from_ with
      | none =>
        rw [List.get?_eq_none] at hts
        rw [hlen] at hlt
        omega
      | some ts =>
        have hgets : td.toDiagram.sets.get? e0.from_ = some ts.toSetObj := by
          rw [toDiagram_sets_get?, hts]
          rfl
        simp only [hgets]
        have hcb : IsChain td.toDiagram.graph e0.from_ q := by
          rw [← hfrom_eq]
          exact hchain'
        have hels : ∀ el ∈ ts.toSetObj.elements, el.1 = ts.ty := by
          intro el hel
          simp only [TypedSet.toSetObj, List.mem_map] at hel
          obtain ⟨w, _, hw⟩ := hel
          rw [← hw]
        have helems := typed_elemsLoop_some td hwt e0.from_ ts hts pa q
          hchain hcb ts.toSetObj.elements hels
        cases hel : elemsLoop td.toDiagram ts.toSetObj pa q
            ts.toSetObj.elements with
        | none => exact absurd hel helems
        | some o =>
          cases o with
          | none => simpa [hel] using ih'
          | some r => simp [hel]
    · exact ih'

theorem typed_pairsA_some (td : TypedDiagram Ty Val) (hwt : WellTyped td)
    (allPs : List (List DiEdge))
    (hall : ∀ p ∈ allPs, ChainPath td.toDiagram.graph p) :
    ∀ lst, (∀ p ∈ lst, ChainPath td.toDiagram.graph p) →
      pairsA td.toDiagram allPs lst ≠ none := by
  intro lst
  induction lst with
  | nil => intro _; simp [pairsA]
  | cons q rest ih =>
    intro hlst
    have hq := hlst q (by simp)
    have ih' := ih fun x hx => hlst x (by simp [hx])
    rw [pairsA]
    have hB := typed_pairsB_some td hwt q hq allPs hall
    cases hb : pairsB td.toDiagram q allPs with
    | none => exact absurd hb hB
    | some o =>
      cases o with
      | none => simpa [hb] using ih'
      | some r => simp [hb]

/-- C8: under the construction contract — every map's from/to indices are
valid set indices and every map's declared input/output types are its
endpoint sets' types (which forces every element routed to a map or to a
check/filter predicate to have the declared concrete type) — and on an
acyclic diagram, the failure branches of `diagram_commutes` are
unreachable: no `Mappable::map` unwrap, no check/filter downcast and no
index panics, so the checker always produces a result. -/
theorem c8_well_typed_total (td : TypedDiagram Ty Val) (hwt : WellTyped td)
    (hacyc : Acyclic td.toDiagram.graph) :
    ∃ r, diagram_commutes td.toDiagram = some r := by
  have hidx : ∀ mo ∈ td.toDiagram.maps, mo.from_ < td.toDiagram.sets.length := by
    intro mo hmo
    simp only [TypedDiagram.toDiagram, List.mem_map] at hmo
    obtain ⟨tm, htm, hmo'⟩ := hmo
    obtain ⟨s1, _, hs1, _, _, _⟩ := hwt tm htm
    obtain ⟨hlt, _⟩ := List.get?_eq_some.mp hs1
    have hlen : td.toDiagram.sets.length = td.sets.length := by
      simp [TypedDiagram.toDiagram]
    rw [hlen, ← hmo']
    exact hlt
  have hwf := diagram_graph_wf td.toDiagram hidx
  obtain ⟨ps, hok, hiff⟩ := all_paths_spec td.toDiagram.graph hwf hacyc
  have hall : ∀ p ∈ ps, ChainPath td.toDiagram.graph p := by
    intro p hp
    obtain ⟨hne, hv⟩ := (hiff p).mp hp
    exact ⟨hne, hv⟩
  have hA := typed_pairsA_some td hwt ps hall ps hall
  cases hA' : pairsA td.toDiagram ps ps with
  | none => exact absurd hA' hA
  | some o =>
    cases o with
    | none =>
      exact ⟨Except.ok CommutativeDiagramResult.commutes,
        by rw [diagram_commutes]; simp only [hok, hA']⟩
    | some r =>
      exact ⟨r, by rw [diagram_commutes]; simp only [hok, hA']⟩

/-- The value universe of the C8 witness: tag `true` holds integers, tag
`false` holds integer pairs. -/
abbrev Val8 : Bool → Type := fun b => cond b Int (Int × Int)

/-- A well-typed two-set diagram: pairs, integers, and the addition map. -/
def td8 : TypedDiagram Bool Val8 where
  sets := [⟨false, [((1 : Int), (2 : Int))], fun _ => true, fun _ => true⟩,
           ⟨true, [], fun _ => true, fun _ => true⟩]
  maps := [⟨0, 1, false, true, fun p => p.1 + p.2, "add"⟩]
  beqv := fun t => match t with
    | true => fun (a b : Int) => a == b
    | false => fun (a b : Int × Int) => a == b
  namev := fun t => match t with
    | true => fun (a : Int) => toString a
    | false => fun (a : Int × Int) => toString a

theorem td8_wt : WellTyped td8 := by
  intro m hm
  simp only [td8, List.mem_singleton] at hm
  subst hm
  exact ⟨⟨false, [((1 : Int), (2 : Int))], fun _ => true, fun _ => true⟩,
    ⟨true, [], fun _ => true, fun _ => true⟩, rfl, rfl, rfl, rfl⟩

theorem td8_acyclic : Acyclic td8.toDiagram.graph := by
  apply acyclic_of_rank _ id
  intro v e he
  obtain ⟨j, m, hj, hf, he'⟩ := (graph_outbounds_mem td8.toDiagram v e).mp he
  cases j with
  | zero =>
    have hm : m = TypedMap.toMapObj
        ⟨0, 1, false, true, fun p => p.1 + p.2, "add"⟩ := by
      have := hj
      simp [td8, TypedDiagram.toDiagram] at this
      exact this.symm
    subst hm
    have hv : v = 0 := by
      simpa [TypedMap.toMapObj, td8] using hf.symm
    rw [he', hv]
    decide
  | succ j' =>
    simp [td8, TypedDiagram.toDiagram] at hj

/-- C8 witness: on the concrete well-typed diagram the checker returns a
result (no panic). -/
theorem c8_well_typed_total_witness :
    ∃ r, diagram_commutes td8.toDiagram = some r :=
  c8_well_typed_total td8 td8_wt td8_acyclic

end TypedProofs

/-- With a reflexive element equality, the element loop of a path paired
with itself never returns a disagreement: both replays are the same
computation, so completed finals coincide. -/
theorem elemsLoop_self_ne_dnc {El : Type} (d : Diagram El)
    (hrefl : ∀ a, d.beq a a = true) (s : SetObj El) (p : List DiEdge) :
    ∀ els r, elemsLoop d s p p els ≠
      some (some (Except.ok (CommutativeDiagramResult.doesNotCommute r))) := by
  intro els
  induction els with
  | nil => intro r; simp [elemsLoop]
  | cons y rest ih =>
    intro r
    cases hf : s.filter y with
    | none => simp [elemsLoop, hf]
    | some b =>
      cases b with
      | false => simpa [elemsLoop, hf] using ih r
      | true =>
        cases hc : s.check y with
        | none => simp [elemsLoop, hf, hc]
        | some b' =>
          cases b' with
          | false => simp [elemsLoop, hf, hc]
          | true =>
            cases hra : replay d y p with
            | panic => simp [elemsLoop, hf, hc, hra]
            | filtered => simpa [elemsLoop, hf, hc, hra] using ih r
            | checkFailed bad => simp [elemsLoop, hf, hc, hra]
            | done a =>
              simpa [elemsLoop, hf, hc, hra, hrefl a] using ih r

/-- C10: with pure maps (the embedding's functions are pure) and the
reflexive element equality the blanket `Element` impl provides, no
`DoesNotCommute` ever arises from a path paired with itself (first
conjunct), so every `DoesNotCommute` returned by `diagram_commutes` was
produced by a pair of two distinct paths (second conjunct). -/
theorem c10_distinct_paths_only {El : Type} (d : Diagram El)
    (hrefl : ∀ a, d.beq a a = true) :
    (∀ s p els r, elemsLoop d s p p els ≠
      some (some (Except.ok (CommutativeDiagramResult.doesNotCommute r)))) ∧
    (∀ r, diagram_commutes d =
        some (Except.ok (CommutativeDiagramResult.doesNotCommute r)) →
      ∃ pa pb, pa ≠ pb ∧ ∃ e0 s, pa.head? = some e0 ∧
        d.sets.get? e0.from_ = some s ∧
        elemsLoop d s pa pb s.elements =
          some (some (Except.ok (CommutativeDiagramResult.doesNotCommute r)))) := by
  refine ⟨fun s p els r => elemsLoop_self_ne_dnc d hrefl s p els r, ?_⟩
  intro r h
  rw [diagram_commutes] at h
  cases hap : all_paths d.graph with
  | none => simp only [hap] at h; exact absurd h (by simp)
  | some x =>
    cases x with
    | error e => simp only [hap] at h; exact absurd h (by simp)
    | ok allPs =>
      simp only [hap] at h
      cases hA : pairsA d allPs allPs with
      | none => simp only [hA] at h; exact absurd h (by simp)
      | some o =>
        cases o with
        | none => simp only [hA] at h; exact absurd h (by simp)
        | some r' =>
          simp only [hA, Option.some.injEq] at h
          subst h
          obtain ⟨pa, _, hB⟩ := pairsA_some_eq d allPs _ allPs hA
          obtain ⟨pb, _, e0, s, hhead, hgets, hel⟩ :=
            pairsB_some_eq d pa _ allPs hB
          refine ⟨pa, pb, ?_, e0, s, hhead, hgets, hel⟩
          intro heq
          subst heq
          exact elemsLoop_self_ne_dnc d hrefl s pa s.elements _ hel

/-- C10 witness: on `dDisagree` (integer equality is reflexive) the
self-paired path `[f]` cannot produce the disagreement it reports for the
pair `([f], [g])`. -/
theorem c10_distinct_paths_only_witness :
    elemsLoop dDisagree ⟨[0], fun _ => some true, fun _ => some true⟩
      [⟨0, 1, 0⟩] [⟨0, 1, 0⟩] [0] ≠
    some (some (Except.ok (CommutativeDiagramResult.doesNotCommute
      "f and g don't agree on 0. Left gets 1 while right gets 2"))) :=
  (c10_distinct_paths_only dDisagree (fun a => by simp [dDisagree])).1
    ⟨[0], fun _ => some true, fun _ => some true⟩ [⟨0, 1, 0⟩] [0]
    "f and g don't agree on 0. Left gets 1 while right gets 2"

end Commuter
